import Mathlib

set_option maxRecDepth 8192

/-!
Verification development for the hydra-frog-os crawl execution engine.

Shallow embedding of:
- the per-page rule evaluator (`packages/shared/src/issues`),
- the issue-summary merge (`issue-summary.ts`, `saveIssueSummary`),
- the idempotency wipe and the BFS loop of `crawl-runner.ts` (`runCrawl`),
- the job runner status writes (`workers/crawler/src/index.ts`, `processJob`)
  and the cancel endpoint (`apps/api/src/crawl/crawl.service.ts`),
- the post-processor (`post-processor.ts`, `postProcessCrawl`),
- URL normalization (`url/normalize.ts`, `normalizeUrl`).

JavaScript strings are modeled as Lean `String` where only equality,
trimming, lower-casing and length matter, and as lists of bytes
(`Fin 256`) inside the URL normalizer where percent-encoding matters.
-/

namespace HydraFrog

/-- Issue type identifiers, from `packages/shared/src/issues/types.ts` (`IssueType`). -/
inductive IssueType where
  | STATUS_4XX_5XX
  | STATUS_3XX_REDIRECT
  | REDIRECT_CHAIN_LONG
  | MISSING_TITLE
  | DUPLICATE_TITLE
  | TITLE_TOO_LONG
  | TITLE_TOO_SHORT
  | MISSING_META_DESCRIPTION
  | H1_MISSING
  | H1_MULTIPLE
  | CANONICAL_MISSING
  | ROBOTS_NOINDEX
  | THIN_CONTENT
  | IMAGES_MISSING_ALT
  deriving DecidableEq, Repr

/-- Severity levels, from `packages/shared/src/issues/types.ts` (`Severity`). -/
inductive Severity where
  | LOW
  | MEDIUM
  | HIGH
  | CRITICAL
  deriving DecidableEq, Repr

/-- A JSON-ish value as stored in issue evidence objects. -/
inductive JVal where
  | jnull
  | jnum (n : Nat)
  | jstr (s : String)
  deriving DecidableEq, Repr

/-- One entry of a redirect chain (`{url, statusCode}`). -/
structure RedirectHop where
  url : String
  statusCode : Option Nat
  deriving DecidableEq, Repr

/-- `PageAnalysisInput` from `packages/shared/src/issues/types.ts`.
`redirectChainJson` has type `unknown` in the source; it is modeled as an
optional list of hops (the evaluator treats a non-array value exactly like an
absent one, contributing chain length 0, so the list model covers the behavior
of all inputs the engine produces). -/
structure PageAnalysisInput where
  statusCode : Option Nat
  title : Option String
  metaDescription : Option String
  h1Count : Option Nat
  canonical : Option String
  robotsMeta : Option String
  wordCount : Option Nat
  redirectChainJson : Option (List RedirectHop)
  deriving DecidableEq, Repr

/-- `ExtraAnalysisInput` from `packages/shared/src/issues/types.ts`. -/
structure ExtraAnalysisInput where
  imagesMissingAlt : Option Nat
  deriving DecidableEq, Repr

/-- `IssueDraft` from `packages/shared/src/issues/types.ts`. -/
structure IssueDraft where
  type : IssueType
  severity : Severity
  title : String
  description : String
  recommendation : String
  evidenceJson : List (String × JVal)
  deriving DecidableEq, Repr

/-- JavaScript `String.prototype.toLowerCase`, modeled per character. -/
def lowerString (s : String) : String :=
  String.mk (s.data.map Char.toLower)

/-- Does the second list start with the first one? -/
def listStartsWith : List Char → List Char → Bool
  | [], _ => true
  | _ :: _, [] => false
  | p :: ps, s :: ss => p = s && listStartsWith ps ss

/-- Does the list contain the pattern as a contiguous subsequence? -/
def listContainsSeq (pat : List Char) : List Char → Bool
  | [] => listStartsWith pat []
  | s :: ss => listStartsWith pat (s :: ss) || listContainsSeq pat ss

/-- JavaScript `String.prototype.includes`. -/
def stringIncludes (hay pat : String) : Bool :=
  listContainsSeq pat.data hay.data

/-- `RuleDefinition` from the rule evaluator module (evidence keys are kept). -/
structure RuleDef where
  type : IssueType
  severity : Severity
  title : String
  description : String
  recommendation : String
  evaluate : PageAnalysisInput → Option ExtraAnalysisInput → Bool × List (String × JVal)

/-- Rule `STATUS_4XX_5XX` from `RULES`. -/
def rule_STATUS_4XX_5XX : RuleDef where
  type := .STATUS_4XX_5XX
  severity := .CRITICAL
  title := "Page returns error status code"
  description := "This page returned an HTTP 4xx or 5xx error status code, meaning it is broken or unavailable."
  recommendation := "Fix the server error or update/remove links pointing to this URL."
  evaluate := fun page _ =>
    let statusCode := page.statusCode.getD 0
    (decide (400 ≤ statusCode), [("statusCode", JVal.jnum statusCode)])

/-- Rule `STATUS_3XX_REDIRECT` from `RULES`. -/
def rule_STATUS_3XX_REDIRECT : RuleDef where
  type := .STATUS_3XX_REDIRECT
  severity := .MEDIUM
  title := "Page redirects to another URL"
  description := "This page returns a 3xx redirect status code instead of serving content directly."
  recommendation := "Update internal links to point directly to the final destination URL."
  evaluate := fun page _ =>
    let statusCode := page.statusCode.getD 0
    (decide (300 ≤ statusCode) && decide (statusCode < 400),
      [("statusCode", JVal.jnum statusCode)])

/-- Rule `REDIRECT_CHAIN_LONG` from `RULES`. A missing or non-array
`redirectChainJson` contributes chain length 0, exactly as in the source. -/
def rule_REDIRECT_CHAIN_LONG : RuleDef where
  type := .REDIRECT_CHAIN_LONG
  severity := .HIGH
  title := "Long redirect chain detected"
  description := "This page goes through 3 or more redirects before reaching the final destination, which slows down page load."
  recommendation := "Reduce redirect chains by updating links to point directly to the final URL."
  evaluate := fun page _ =>
    let chainLength := (page.redirectChainJson.getD []).length
    (decide (3 ≤ chainLength), [("redirectChainLength", JVal.jnum chainLength)])

/-- Rule `MISSING_TITLE` from `RULES`. -/
def rule_MISSING_TITLE : RuleDef where
  type := .MISSING_TITLE
  severity := .HIGH
  title := "Missing page title"
  description := "This page is missing a <title> tag, which is critical for SEO and user experience."
  recommendation := "Add a unique, descriptive <title> tag between 30-60 characters."
  evaluate := fun page _ =>
    let title := (page.title.getD "").trim
    (decide (title = ""),
      [("title", match page.title with | some s => JVal.jstr s | none => JVal.jnull)])

/-- Rule `TITLE_TOO_LONG` from `RULES`. -/
def rule_TITLE_TOO_LONG : RuleDef where
  type := .TITLE_TOO_LONG
  severity := .LOW
  title := "Page title is too long"
  description := "The title tag exceeds 60 characters and may be truncated in search results."
  recommendation := "Shorten the title to 60 characters or less to ensure it displays fully."
  evaluate := fun page _ =>
    let title := (page.title.getD "").trim
    (decide (60 < title.length),
      [("titleLength", JVal.jnum title.length), ("title", JVal.jstr title)])

/-- Rule `TITLE_TOO_SHORT` from `RULES`. -/
def rule_TITLE_TOO_SHORT : RuleDef where
  type := .TITLE_TOO_SHORT
  severity := .LOW
  title := "Page title is too short"
  description := "The title tag has fewer than 10 characters, which may not be descriptive enough."
  recommendation := "Expand the title to at least 30 characters with relevant keywords."
  evaluate := fun page _ =>
    let title := (page.title.getD "").trim
    (decide (0 < title.length) && decide (title.length < 10),
      [("titleLength", JVal.jnum title.length), ("title", JVal.jstr title)])

/-- Rule `MISSING_META_DESCRIPTION` from `RULES`. -/
def rule_MISSING_META_DESCRIPTION : RuleDef where
  type := .MISSING_META_DESCRIPTION
  severity := .MEDIUM
  title := "Missing meta description"
  description := "This page is missing a meta description, which search engines use as the snippet in results."
  recommendation := "Add a meta description between 120-160 characters summarizing the page content."
  evaluate := fun page _ =>
    let metaDescription := (page.metaDescription.getD "").trim
    (decide (metaDescription = ""),
      [("metaDescription",
        match page.metaDescription with | some s => JVal.jstr s | none => JVal.jnull)])

/-- Rule `H1_MISSING` from `RULES`. -/
def rule_H1_MISSING : RuleDef where
  type := .H1_MISSING
  severity := .HIGH
  title := "Missing H1 heading"
  description := "This page has no H1 heading, which is important for content structure and SEO."
  recommendation := "Add exactly one H1 heading that describes the main topic of the page."
  evaluate := fun page _ =>
    let h1Count := page.h1Count.getD 0
    (decide (h1Count = 0), [("h1Count", JVal.jnum h1Count)])

/-- Rule `H1_MULTIPLE` from `RULES`. -/
def rule_H1_MULTIPLE : RuleDef where
  type := .H1_MULTIPLE
  severity := .LOW
  title := "Multiple H1 headings"
  description := "This page has more than one H1 heading, which can confuse search engines about the main topic."
  recommendation := "Use only one H1 heading per page and use H2-H6 for subheadings."
  evaluate := fun page _ =>
    let h1Count := page.h1Count.getD 0
    (decide (1 < h1Count), [("h1Count", JVal.jnum h1Count)])

/-- Rule `CANONICAL_MISSING` from `RULES`. -/
def rule_CANONICAL_MISSING : RuleDef where
  type := .CANONICAL_MISSING
  severity := .LOW
  title := "Missing canonical tag"
  description := "This page is missing a canonical URL tag, which helps prevent duplicate content issues."
  recommendation := "Add a <link rel=canonical> tag pointing to the preferred version of this page."
  evaluate := fun page _ =>
    let canonical := (page.canonical.getD "").trim
    (decide (canonical = ""),
      [("canonical", match page.canonical with | some s => JVal.jstr s | none => JVal.jnull)])

/-- Rule `ROBOTS_NOINDEX` from `RULES`. -/
def rule_ROBOTS_NOINDEX : RuleDef where
  type := .ROBOTS_NOINDEX
  severity := .MEDIUM
  title := "Page blocked from indexing"
  description := "This page has a noindex directive in the robots meta tag, preventing search engines from indexing it."
  recommendation := "Remove noindex if you want this page to appear in search results."
  evaluate := fun page _ =>
    let robotsMeta := lowerString (page.robotsMeta.getD "")
    (stringIncludes robotsMeta "noindex",
      [("robotsMeta", match page.robotsMeta with | some s => JVal.jstr s | none => JVal.jnull)])

/-- Rule `THIN_CONTENT` from `RULES`. -/
def rule_THIN_CONTENT : RuleDef where
  type := .THIN_CONTENT
  severity := .LOW
  title := "Thin content detected"
  description := "This page has fewer than 150 words, which may be considered low-quality content."
  recommendation := "Add more valuable content to reach at least 300-500 words for better SEO."
  evaluate := fun page _ =>
    (page.wordCount.isSome && decide (page.wordCount.getD 0 < 150),
      [("wordCount", match page.wordCount with | some n => JVal.jnum n | none => JVal.jnull)])

/-- Rule `IMAGES_MISSING_ALT` from `RULES`. -/
def rule_IMAGES_MISSING_ALT : RuleDef where
  type := .IMAGES_MISSING_ALT
  severity := .LOW
  title := "Images missing alt text"
  description := "One or more images on this page are missing alt attributes, reducing accessibility."
  recommendation := "Add descriptive alt text to all images for screen readers and SEO."
  evaluate := fun _ extra =>
    let imagesMissingAlt := (extra.bind (fun e => e.imagesMissingAlt)).getD 0
    (decide (0 < imagesMissingAlt), [("imagesMissingAlt", JVal.jnum imagesMissingAlt)])

/-- The `RULES` array from the rule evaluator, in source order. -/
def RULES : List RuleDef :=
  [rule_STATUS_4XX_5XX, rule_STATUS_3XX_REDIRECT, rule_REDIRECT_CHAIN_LONG,
   rule_MISSING_TITLE, rule_TITLE_TOO_LONG, rule_TITLE_TOO_SHORT,
   rule_MISSING_META_DESCRIPTION, rule_H1_MISSING, rule_H1_MULTIPLE,
   rule_CANONICAL_MISSING, rule_ROBOTS_NOINDEX, rule_THIN_CONTENT,
   rule_IMAGES_MISSING_ALT]

/-- The draft pushed for a triggered rule (body of the push in `evaluatePageIssues`). -/
def mkDraft (rule : RuleDef) (page : PageAnalysisInput)
    (extra : Option ExtraAnalysisInput) : IssueDraft where
  type := rule.type
  severity := rule.severity
  title := rule.title
  description := rule.description
  recommendation := rule.recommendation
  evidenceJson := (rule.evaluate page extra).2

/-- One loop iteration of `evaluatePageIssues`: the draft when the rule triggers. -/
def draftOfRule (rule : RuleDef) (page : PageAnalysisInput)
    (extra : Option ExtraAnalysisInput) : Option IssueDraft :=
  if (rule.evaluate page extra).1 then some (mkDraft rule page extra) else none

/-- `evaluatePageIssues` from `packages/shared/src/issues`: run every rule in
order and collect a draft for each rule that triggered. -/
def evaluatePageIssues (page : PageAnalysisInput)
    (extra : Option ExtraAnalysisInput) : List IssueDraft :=
  RULES.filterMap (fun rule => draftOfRule rule page extra)

/-- The severity §4.4 of the spec assigns to each rule identifier. -/
def specSeverity : IssueType → Severity
  | .STATUS_4XX_5XX => .CRITICAL
  | .STATUS_3XX_REDIRECT => .MEDIUM
  | .REDIRECT_CHAIN_LONG => .HIGH
  | .MISSING_TITLE => .HIGH
  | .DUPLICATE_TITLE => .MEDIUM
  | .TITLE_TOO_LONG => .LOW
  | .TITLE_TOO_SHORT => .LOW
  | .MISSING_META_DESCRIPTION => .MEDIUM
  | .H1_MISSING => .HIGH
  | .H1_MULTIPLE => .LOW
  | .CANONICAL_MISSING => .LOW
  | .ROBOTS_NOINDEX => .MEDIUM
  | .THIN_CONTENT => .LOW
  | .IMAGES_MISSING_ALT => .LOW

/-- Issue summary computed by `computeIssueSummary` (`issue-summary.ts`).
Only the four keys written by `saveIssueSummary` matter here; their values are
kept abstract in `V`. -/
structure IssueSummary (V : Type) where
  issueCountTotal : V
  issueCountByType : V
  issueCountBySeverity : V
  topIssueTypes : V

/-- `saveIssueSummary` from `issue-summary.ts`: spread the existing totals
object and overwrite the four summary keys. The totals JSON object is modeled
as a key-indexed partial map; `JSON.parse(JSON.stringify(x))`, the identity on
JSON-representable values, is not modeled. -/
def saveIssueSummary {V : Type} (existingTotals : String → Option V)
    (summary : IssueSummary V) : String → Option V :=
  fun k =>
    if k = "issueCountTotal" then some summary.issueCountTotal
    else if k = "issueCountByType" then some summary.issueCountByType
    else if k = "issueCountBySeverity" then some summary.issueCountBySeverity
    else if k = "topIssueTypes" then some summary.topIssueTypes
    else existingTotals k

/-- An Issue row, restricted to the column the start-of-run wipe filters on. -/
structure IssueRowDB where
  crawlRunId : String
  deriving DecidableEq, Repr

/-- A Link row, restricted to the column the start-of-run wipe filters on. -/
structure LinkRowDB where
  crawlRunId : String
  deriving DecidableEq, Repr

/-- A Page row, restricted to the column the start-of-run wipe filters on. -/
structure PageRowDB where
  crawlRunId : String
  deriving DecidableEq, Repr

/-- A Template row, restricted to the column a wipe would filter on. -/
structure TemplateRowDB where
  crawlRunId : String
  deriving DecidableEq, Repr

/-- The four child tables of a crawl run. -/
structure CrawlDB where
  issues : List IssueRowDB
  links : List LinkRowDB
  pages : List PageRowDB
  templates : List TemplateRowDB
  deriving DecidableEq, Repr

/-- The idempotency wipe at the start of `runCrawl` (`crawl-runner.ts` lines
137-139): `deleteMany` on Issue, Link and Page scoped to the crawl run.
No statement touches the Template table. -/
def runCrawlWipe (db : CrawlDB) (crawlRunId : String) : CrawlDB where
  issues := db.issues.filter (fun r => !(r.crawlRunId = crawlRunId : Bool))
  links := db.links.filter (fun r => !(r.crawlRunId = crawlRunId : Bool))
  pages := db.pages.filter (fun r => !(r.crawlRunId = crawlRunId : Bool))
  templates := db.templates

/-- `CrawlRunStatus` enum. -/
inductive CrawlRunStatus where
  | QUEUED
  | RUNNING
  | DONE
  | FAILED
  | CANCELED
  deriving DecidableEq, Repr, Fintype

/-- The sequence of statuses `processJob` (`workers/crawler/src/index.ts`)
writes to the run, given the status found on entry, whether the crawl threw,
and the status observed by the re-read after the crawl (which an external
cancel may have flipped). On entry only `CANCELED` short-circuits; any other
status - including `DONE` and `FAILED` on a re-delivered job - is overwritten
with `RUNNING`. -/
def processJob (statusOnEntry : CrawlRunStatus) (crawlThrows : Bool)
    (statusAfterCrawl : CrawlRunStatus) : List CrawlRunStatus :=
  if statusOnEntry = .CANCELED then []
  else
    .RUNNING ::
      (if crawlThrows then [.FAILED]
       else if statusAfterCrawl = .CANCELED then [] else [.DONE])

/-- The `cancel` operation of `crawl.service.ts`: rejects runs already in a
terminal state (`BadRequestException`, modeled as `none`), otherwise writes
`CANCELED`. -/
def cancel (status : CrawlRunStatus) : Option CrawlRunStatus :=
  if status = .DONE ∨ status = .FAILED ∨ status = .CANCELED then none
  else some .CANCELED

/-- `LinkType` enum. -/
inductive LinkType where
  | INTERNAL
  | EXTERNAL
  deriving DecidableEq, Repr

/-- A Page row as selected by `postProcessCrawl` (step 1). -/
structure PageRowPP where
  normalizedUrl : String
  statusCode : Option Nat
  deriving DecidableEq, Repr

/-- A Link row with the columns `postProcessCrawl` reads and updates. -/
structure LinkRowPP where
  id : Nat
  linkType : LinkType
  toNormalizedUrl : String
  isBroken : Bool
  statusCode : Option Nat
  deriving DecidableEq, Repr

/-- JavaScript `Map.prototype.set`: overwrite in place when the key exists
(keeping its position), append otherwise. -/
def mapSet {K V : Type} [DecidableEq K] (m : List (K × V)) (k : K) (v : V) :
    List (K × V) :=
  if m.any (fun e => e.1 = k) then m.map (fun e => if e.1 = k then (k, v) else e)
  else m ++ [(k, v)]

/-- JavaScript `Map.prototype.get`. -/
def mapGet {K V : Type} [DecidableEq K] (m : List (K × V)) (k : K) : Option V :=
  (m.find? (fun e => e.1 = k)).map (fun e => e.2)

/-- Step 1 of `postProcessCrawl`: `pageStatusMap`, mapping normalizedUrl to
statusCode over the run's pages with a non-null status. -/
def pageStatusMap (pages : List PageRowPP) : List (String × Nat) :=
  pages.foldl (fun m page =>
    match page.statusCode with
    | some s => mapSet m page.normalizedUrl s
    | none => m) []

/-- The JS-object increment `dist[key] = (dist[key] || 0) + 1`. The object is
keyed by `String(statusCode)` in the source; since `String` is injective on
numbers the model keys by the number itself. -/
def distIncr (dist : List (Nat × Nat)) (k : Nat) : List (Nat × Nat) :=
  if dist.any (fun e => e.1 = k) then
    dist.map (fun e => if e.1 = k then (k, e.2 + 1) else e)
  else dist ++ [(k, 1)]

/-- Step 1 of `postProcessCrawl`: `statusCodeDistribution`, counting pages per
non-null status code (pages with `statusCode = null` are skipped). -/
def statusCodeDistribution (pages : List PageRowPP) : List (Nat × Nat) :=
  pages.foldl (fun dist page =>
    match page.statusCode with
    | some s => distIncr dist s
    | none => dist) []

/-- Step 2 of `postProcessCrawl`: `brokenLinkUpdates`, the `(id, statusCode)`
updates collected for INTERNAL links whose target maps to a status >= 400. -/
def brokenLinkUpdates (pm : List (String × Nat)) (internalLinks : List LinkRowPP) :
    List (Nat × Nat) :=
  internalLinks.foldl (fun upd link =>
    match mapGet pm link.toNormalizedUrl with
    | some s => if 400 ≤ s then upd ++ [(link.id, s)] else upd
    | none => upd) []

/-- Step 2 of `postProcessCrawl`: `errorPageCounts`, mapping each broken
target URL to its status and the number of internal links pointing at it. -/
def errorPageCounts (pm : List (String × Nat)) (internalLinks : List LinkRowPP) :
    List (String × (Nat × Nat)) :=
  internalLinks.foldl (fun counts link =>
    match mapGet pm link.toNormalizedUrl with
    | some s =>
      if 400 ≤ s then
        match mapGet counts link.toNormalizedUrl with
        | some e => mapSet counts link.toNormalizedUrl (e.1, e.2 + 1)
        | none => mapSet counts link.toNormalizedUrl (s, 1)
      else counts
    | none => counts) []

/-- The single-row `link.update`: set `isBroken = true` and the target status. -/
def setBroken (l : LinkRowPP) (s : Nat) : LinkRowPP :=
  { l with isBroken := true, statusCode := some s }

/-- Step 3 of `postProcessCrawl`: apply every collected update to the link
table, each update addressing rows by id. -/
def applyBrokenLinkUpdates (links : List LinkRowPP) (updates : List (Nat × Nat)) :
    List LinkRowPP :=
  updates.foldl (fun ls upd =>
    ls.map (fun l => if l.id = upd.1 then setBroken l upd.2 else l)) links

/-- `ErrorPage` entry of the totals. -/
structure ErrorPage where
  url : String
  statusCode : Nat
  count : Nat
  deriving DecidableEq, Repr

/-- `CrawlTotals` as computed by `postProcessCrawl`. -/
structure CrawlTotals where
  pagesCount : Nat
  linksCount : Nat
  internalLinksCount : Nat
  externalLinksCount : Nat
  brokenInternalLinksCount : Nat
  statusCodeDistribution : List (Nat × Nat)
  topErrorPages : List ErrorPage
  deriving DecidableEq, Repr

/-- `postProcessCrawl` from `post-processor.ts`, as a pure function of the
run's Page and Link rows: returns the totals and the updated Link table.
The JS `sort((a, b) => b.count - a.count)` is a stable descending sort,
modeled by a stable insertion sort. -/
def postProcessCrawl (pages : List PageRowPP) (links : List LinkRowPP) :
    CrawlTotals × List LinkRowPP :=
  let pm := pageStatusMap pages
  let dist := statusCodeDistribution pages
  let internalLinks := links.filter (fun l => l.linkType = LinkType.INTERNAL)
  let updates := brokenLinkUpdates pm internalLinks
  let updatedLinks := applyBrokenLinkUpdates links updates
  let externalLinks := (links.filter (fun l => l.linkType = LinkType.EXTERNAL)).length
  let topErrorPages :=
    (((errorPageCounts pm internalLinks).map
        (fun e => ErrorPage.mk e.1 e.2.1 e.2.2)).insertionSort
      (fun a b => b.count ≤ a.count)).take 10
  ({ pagesCount := pages.length
     linksCount := links.length
     internalLinksCount := internalLinks.length
     externalLinksCount := externalLinks
     brokenInternalLinksCount := updates.length
     statusCodeDistribution := dist
     topErrorPages := topErrorPages }, updatedLinks)

/-- URL strings are modeled at the byte level: percent-encoding operates on
bytes, and ASCII URLs are byte-for-byte faithful. -/
abbrev Byte := Fin 256

/-- A byte string. -/
abbrev ByteStr := List Byte

/-- ASCII bytes of a Lean string (faithful for ASCII inputs). -/
def strB (s : String) : ByteStr :=
  s.data.map (fun c => Fin.ofNat c.toNat)

/-- The colon byte. -/
def bCOLON : Byte := 58

/-- The slash byte. -/
def bSLASH : Byte := 47

/-- The question-mark byte. -/
def bQMARK : Byte := 63

/-- The hash byte. -/
def bHASH : Byte := 35

/-- The ampersand byte. -/
def bAMP : Byte := 38

/-- The equals byte. -/
def bEQ : Byte := 61

/-- The percent byte. -/
def bPCT : Byte := 37

/-- The plus byte. -/
def bPLUS : Byte := 43

/-- The space byte. -/
def bSPACE : Byte := 32

/-- The dot byte. -/
def bDOT : Byte := 46

/-- Upper-case ASCII letter. -/
def isUpperAlphaB (b : Byte) : Bool := 65 ≤ b.val && b.val ≤ 90

/-- Lower-case ASCII letter. -/
def isLowerAlphaB (b : Byte) : Bool := 97 ≤ b.val && b.val ≤ 122

/-- ASCII letter. -/
def isAlphaB (b : Byte) : Bool := isUpperAlphaB b || isLowerAlphaB b

/-- ASCII digit. -/
def isDigitB (b : Byte) : Bool := 48 ≤ b.val && b.val ≤ 57

/-- ASCII lower-casing of one byte. -/
def lowerByte (b : Byte) : Byte :=
  if isUpperAlphaB b then Fin.ofNat (b.val + 32) else b

/-- ASCII lower-casing of a byte string (JavaScript `toLowerCase` on URLs). -/
def lowerByteStr (s : ByteStr) : ByteStr := s.map lowerByte

/-- A scheme byte after the first: letter, digit, `+`, `-` or `.` (WHATWG). -/
def isSchemeCharB (b : Byte) : Bool :=
  isAlphaB b || isDigitB b || b = bPLUS || b = 45 || b = bDOT

/-- A valid scheme: a letter followed by scheme bytes. -/
def schemeOk : ByteStr → Bool
  | [] => false
  | c :: rest => isAlphaB c && rest.all isSchemeCharB

/-- A parsed URL record: the fields of the platform `URL` object that
`normalizeUrl` reads and writes. `port = []` stands for an absent port;
`query`/`frag` distinguish an absent component (`none`) from an empty one
(`some []`), matching the serializer emitting a bare `?` or dropping it. -/
structure URLRec where
  scheme : ByteStr
  host : ByteStr
  port : ByteStr
  path : ByteStr
  query : Option ByteStr
  frag : Option ByteStr
  deriving DecidableEq, Repr

/-- Not a URL-component separator byte (stops the host/port scan). -/
def notSepB (b : Byte) : Bool :=
  !(b = bCOLON) && !(b = bSLASH) && !(b = bQMARK) && !(b = bHASH)

/-- Not a path terminator byte. -/
def notPathEndB (b : Byte) : Bool := !(b = bQMARK) && !(b = bHASH)

/-- Not a port terminator byte. -/
def notPortEndB (b : Byte) : Bool :=
  !(b = bSLASH) && !(b = bQMARK) && !(b = bHASH)

/-- Port parsing stage: after the host, a `:` introduces the port digits. -/
def parsePort : ByteStr → ByteStr × ByteStr
  | [] => ([], [])
  | c :: r =>
    if c = bCOLON then (r.takeWhile notPortEndB, r.dropWhile notPortEndB)
    else ([], c :: r)

/-- Path parsing stage: scan to `?` or `#`; an empty path serializes as `/`. -/
def parsePath (rest4 : ByteStr) : ByteStr × ByteStr :=
  let path0 := rest4.takeWhile notPathEndB
  let rest5 := rest4.dropWhile notPathEndB
  (if path0.isEmpty then [bSLASH] else path0, rest5)

/-- Query/fragment parsing stage on the remainder after the path. -/
def parseQF : ByteStr → Option ByteStr × Option ByteStr
  | [] => (none, none)
  | c :: r =>
    if c = bQMARK then
      (some (r.takeWhile (fun b => !(b = bHASH))),
       match r.dropWhile (fun b => !(b = bHASH)) with
       | _ :: f => some f
       | [] => none)
    else (none, some r)

/-- Model of the platform `new URL(...)` parser for absolute http(s)-style
URLs: `scheme://host[:port][/path][?query][#frag]`. The scheme is
lower-cased during parsing, as WHATWG does. Not modeled (noted deviations
from WHATWG): userinfo, backslash-as-slash, dot-segment collapsing,
host punycoding and percent-encoding of components, the 65535 port bound
and port canonicalization of leading zeros. -/
def parseURL (s : ByteStr) : Option URLRec :=
  if !(schemeOk (s.takeWhile (fun b => !(b = bCOLON)))) then none
  else
    match s.dropWhile (fun b => !(b = bCOLON)) with
    | _ :: s1 :: s2 :: rest2 =>
      if s1 = bSLASH ∧ s2 = bSLASH then
        if (rest2.takeWhile notSepB).isEmpty then none
        else
          if !((parsePort (rest2.dropWhile notSepB)).1.all isDigitB) then none
          else
            some ⟨lowerByteStr (s.takeWhile (fun b => !(b = bCOLON))),
                  rest2.takeWhile notSepB,
                  (parsePort (rest2.dropWhile notSepB)).1,
                  (parsePath (parsePort (rest2.dropWhile notSepB)).2).1,
                  (parseQF (parsePath (parsePort (rest2.dropWhile notSepB)).2).2).1,
                  (parseQF (parsePath (parsePort (rest2.dropWhile notSepB)).2).2).2⟩
      else none
    | _ => none

/-- Unreserved byte of `encodeURIComponent`: alphanumeric or one of
`- . _ ~ ! * ' ( )`. -/
def isUnreservedURIB (b : Byte) : Bool :=
  isAlphaB b || isDigitB b || b = 45 || b = bDOT || b = 95 || b = 126
    || b = 33 || b = 42 || b = 39 || b = 40 || b = 41

/-- Upper-case hex digit byte of a value below 16. -/
def hexDigitB (n : Nat) : Byte :=
  Fin.ofNat (if n < 10 then 48 + n else 55 + n)

/-- Hex digit byte (both cases accepted when decoding). -/
def isHexDigitB (b : Byte) : Bool :=
  isDigitB b || (65 ≤ b.val && b.val ≤ 70) || (97 ≤ b.val && b.val ≤ 102)

/-- Value of a hex digit byte. -/
def hexValB (b : Byte) : Nat :=
  if isDigitB b then b.val - 48
  else if 65 ≤ b.val && b.val ≤ 70 then b.val - 55
  else if 97 ≤ b.val && b.val ≤ 102 then b.val - 87
  else 0

/-- `encodeURIComponent` on one byte. -/
def percentEncodeByte (b : Byte) : ByteStr :=
  if isUnreservedURIB b then [b]
  else [bPCT, hexDigitB (b.val / 16), hexDigitB (b.val % 16)]

/-- `encodeURIComponent` on a byte string. -/
def encodeURIComponent (s : ByteStr) : ByteStr :=
  s.flatMap percentEncodeByte

/-- `+` decodes to a space in `application/x-www-form-urlencoded` values. -/
def plusToSpace (b : Byte) : Byte := if b = bPLUS then bSPACE else b

/-- `application/x-www-form-urlencoded` percent-decoding as performed by
`URLSearchParams`: a valid `%XX` escape yields the byte, an invalid escape is
kept verbatim, `+` becomes a space. -/
def formDecode : ByteStr → ByteStr
  | [] => []
  | b :: h1 :: h2 :: rest2 =>
    if b = bPCT && isHexDigitB h1 && isHexDigitB h2 then
      Fin.ofNat (hexValB h1 * 16 + hexValB h2) :: formDecode rest2
    else plusToSpace b :: formDecode (h1 :: h2 :: rest2)
  | b :: rest => plusToSpace b :: formDecode rest

/-- Split a query on `&`, keeping empty segments (they are skipped later, as
the `URLSearchParams` parser does). -/
def splitAmp : ByteStr → List ByteStr
  | [] => [[]]
  | b :: rest =>
    if b = bAMP then [] :: splitAmp rest
    else
      match splitAmp rest with
      | s :: ss => (b :: s) :: ss
      | [] => [[b]]

/-- Parse one nonempty `name=value` segment: split on the first `=`, decode
both sides; a segment without `=` has an empty value. -/
def parsePair (seg : ByteStr) : ByteStr × ByteStr :=
  let name := seg.takeWhile (fun b => !(b = bEQ))
  let rest := seg.dropWhile (fun b => !(b = bEQ))
  match rest with
  | _ :: v => (formDecode name, formDecode v)
  | [] => (formDecode name, [])

/-- The `URLSearchParams` parser: split on `&`, skip empty segments, decode
each `name=value` pair. -/
def parseQuery (q : ByteStr) : List (ByteStr × ByteStr) :=
  (splitAmp q).filterMap (fun seg => if seg.isEmpty then none else some (parsePair seg))

/-- Rebuild one pair as the source does: `encodeURIComponent(k)` alone when
the value is empty, `k=v` otherwise. -/
def serializePair (kv : ByteStr × ByteStr) : ByteStr :=
  if kv.2.isEmpty then encodeURIComponent kv.1
  else encodeURIComponent kv.1 ++ bEQ :: encodeURIComponent kv.2

/-- `join('&')`. -/
def joinAmp : List ByteStr → ByteStr
  | [] => []
  | [s] => s
  | s :: s2 :: rest => s ++ bAMP :: joinAmp (s2 :: rest)

/-- Byte-wise lexicographic comparison, the model of the source's
`localeCompare` sort comparator (deterministic and total, which is all the
idempotence argument uses). -/
def lexLe : ByteStr → ByteStr → Bool
  | [], _ => true
  | _ :: _, [] => false
  | a :: as, b :: bs =>
    if a.val < b.val then true
    else if b.val < a.val then false
    else lexLe as bs

/-- The sort relation on query pairs: compare keys. -/
def pairLex (a b : ByteStr × ByteStr) : Prop := lexLe a.1 b.1 = true

instance : DecidableRel pairLex := fun a b => by
  unfold pairLex
  infer_instance

instance : IsTotal (ByteStr × ByteStr) pairLex where
  total a b := by
    unfold pairLex
    suffices h : ∀ (x y : ByteStr), lexLe x y = true ∨ lexLe y x = true from h a.1 b.1
    intro x
    induction x with
    | nil => intro y; left; cases y <;> rfl
    | cons c cs ih =>
      intro y
      cases y with
      | nil => right; rfl
      | cons d ds =>
        by_cases hcd : c.val < d.val
        · left; simp [lexLe, hcd]
        · by_cases hdc : d.val < c.val
          · right; simp [lexLe, hdc]
          · rcases ih ds with h | h
            · left; simp only [lexLe, if_neg hcd, if_neg hdc]; exact h
            · right; simp only [lexLe, if_neg hdc, if_neg hcd]; exact h

instance : IsTrans (ByteStr × ByteStr) pairLex where
  trans a b c hab hbc := by
    unfold pairLex at hab hbc ⊢
    suffices h : ∀ (x y z : ByteStr), lexLe x y = true → lexLe y z = true → lexLe x z = true from
      h a.1 b.1 c.1 hab hbc
    intro x
    induction x with
    | nil => intro y z _ _; cases z <;> rfl
    | cons u us ih =>
      intro y z huy hyz
      cases y with
      | nil => simp [lexLe] at huy
      | cons v vs =>
        cases z with
        | nil => simp [lexLe] at hyz
        | cons w ws =>
          simp only [lexLe] at huy hyz ⊢
          by_cases huv : u.val < v.val
          · by_cases hvw : v.val < w.val
            · simp [Nat.lt_trans huv hvw]
            · by_cases hwv : w.val < v.val
              · simp [hvw, hwv] at hyz
              · have hvw2 : v.val = w.val :=
                  Nat.le_antisymm (Nat.le_of_not_lt hwv) (Nat.le_of_not_lt hvw)
                simp [hvw2 ▸ huv]
          · by_cases hvu : v.val < u.val
            · simp [huv, hvu] at huy
            · have huv2 : u.val = v.val :=
                Nat.le_antisymm (Nat.le_of_not_lt hvu) (Nat.le_of_not_lt huv)
              by_cases hvw : v.val < w.val
              · simp [huv2 ▸ hvw]
              · by_cases hwv : w.val < v.val
                · simp [hvw, hwv] at hyz
                · have huw1 : ¬ u.val < w.val := by omega
                  have hwu1 : ¬ w.val < u.val := by omega
                  simp only [if_neg huw1, if_neg hwu1]
                  simp only [if_neg huv, if_neg hvu] at huy
                  simp only [if_neg hvw, if_neg hwv] at hyz
                  exact ih vs ws huy hyz

/-- Serializer of the URL record (the platform `URL` serializer for records
of this shape). -/
def serializeURL (r : URLRec) : ByteStr :=
  r.scheme ++ bCOLON :: bSLASH :: bSLASH ::
    (r.host ++ (if r.port.isEmpty then [] else bCOLON :: r.port)
      ++ (r.path ++ ((match r.query with | some q => bQMARK :: q | none => [])
        ++ (match r.frag with | some f => bHASH :: f | none => []))))

/-- The scheme bytes of `http`. -/
def httpBytes : ByteStr := strB "http"

/-- The scheme bytes of `https`. -/
def httpsBytes : ByteStr := strB "https"

/-- The port bytes `80`. -/
def port80 : ByteStr := strB "80"

/-- The port bytes `443`. -/
def port443 : ByteStr := strB "443"

/-- Default-port removal of `normalizeUrl`: clear the port when it is `80`
on http or `443` on https. -/
def normPort (r : URLRec) : ByteStr :=
  if (r.scheme = httpBytes ∧ r.port = port80)
      ∨ (r.scheme = httpsBytes ∧ r.port = port443) then []
  else r.port

/-- The params kept by `normalizeUrl`: parse the search string and drop every
pair whose lower-cased name is in the ignore set. -/
def filteredParams (r : URLRec) (ignoreParams : List ByteStr) :
    List (ByteStr × ByteStr) :=
  (parseQuery (r.query.getD [])).filter
    (fun kv => !((ignoreParams.map lowerByteStr).contains (lowerByteStr kv.1)))

/-- The sorted, rebuilt search string of `normalizeUrl` (without `?`). -/
def rebuiltQuery (r : URLRec) (ignoreParams : List ByteStr) : ByteStr :=
  joinAmp (((filteredParams r ignoreParams).insertionSort pairLex).map serializePair)

/-- The body of `normalizeUrl` after a successful parse: lower-case the host,
remove the default port, drop the fragment, filter + sort + re-encode the
query params, serialize, and strip one trailing slash unless the path is
exactly `/`. -/
def normalizeRec (r : URLRec) (ignoreParams : List ByteStr) : ByteStr :=
  let query : Option ByteStr :=
    if 0 < (filteredParams r ignoreParams).length
    then some (rebuiltQuery r ignoreParams) else none
  let normalized := serializeURL
    ⟨r.scheme, lowerByteStr r.host, normPort r, r.path, query, none⟩
  if r.path ≠ [bSLASH] ∧ normalized.getLast? = some bSLASH
  then normalized.dropLast else normalized

/-- `normalizeUrl` from `url/normalize.ts`: parse, reject non-http(s)
schemes, normalize. Returns `none` (the `null` sentinel) on invalid input. -/
def normalizeUrl (rawUrl : ByteStr) (ignoreParams : List ByteStr) : Option ByteStr :=
  match parseURL rawUrl with
  | none => none
  | some r =>
    if r.scheme = httpBytes ∨ r.scheme = httpsBytes
    then some (normalizeRec r ignoreParams) else none

/-- Does `s` end with `pat`? -/
def listEndsWith [DecidableEq α] (s pat : List α) : Bool :=
  decide (pat <:+ s)

/-- The record `normalizeUrl` serializes (`normalize.ts` lines 30-60):
scheme kept, host lower-cased, default port removed, path kept, query
rebuilt from the kept params (absent when none survive), fragment
dropped. -/
def normRecOf (r : URLRec) (ignoreParams : List ByteStr) : URLRec :=
  ⟨r.scheme, lowerByteStr r.host, normPort r, r.path,
   if 0 < (filteredParams r ignoreParams).length
   then some (rebuiltQuery r ignoreParams) else none, none⟩

/-- The serialized query part of a record: `?q` when present, empty when
absent (`serializeURL`, query component). -/
def queryPart : Option ByteStr → ByteStr
  | some q => bQMARK :: q
  | none => []

/-- The head of the list fails the scan predicate (or the list is empty):
the shape of the remainder after each `takeWhile` scan stage. -/
def headNotP (p : Byte → Bool) : ByteStr → Prop
  | [] => True
  | c :: _ => p c = false

/-! ### The BFS crawl loop (`crawl-runner.ts`, `runCrawl`) -/

end HydraFrog

namespace HydraFrog

/-! ## Theorems -/

/-- `takeWhile`/`dropWhile` on a concatenation whose first part satisfies the
predicate and whose second part starts with a failing element (or is empty). -/
theorem takeWhile_dropWhile_append {α : Type} (p : α → Bool) (l r : List α)
    (hl : ∀ x ∈ l, p x = true)
    (hr : match r with | [] => True | x :: _ => p x = false) :
    (l ++ r).takeWhile p = l ∧ (l ++ r).dropWhile p = r := by
  induction l with
  | nil =>
    cases r with
    | nil => exact ⟨rfl, rfl⟩
    | cons x t =>
      simp only [List.nil_append, List.takeWhile, List.dropWhile]
      simp only at hr
      rw [hr]
      exact ⟨rfl, rfl⟩
  | cons a l ih =>
    have ha : p a = true := hl a (List.mem_cons_self a l)
    have ihl := ih (fun x hx => hl x (List.mem_cons_of_mem a hx))
    simp only [List.cons_append, List.takeWhile, List.dropWhile, ha, List.append_eq]
    exact ⟨by rw [ihl.1], ihl.2⟩

/-- The head of `dropWhile p l`, when any, fails `p`. -/
theorem dropWhile_head_false {α : Type} (p : α → Bool) (l : List α) :
    (match l.dropWhile p with | [] => True | x :: _ => p x = false) := by
  induction l with
  | nil => trivial
  | cons a t ih =>
    by_cases ha : p a = true
    · simpa [List.dropWhile, ha] using ih
    · have ha2 : p a = false := by simpa using ha
      simp [List.dropWhile, ha2]

/-- Lower-casing a byte twice is the same as once. -/
theorem lowerByte_idem : ∀ b : Byte, lowerByte (lowerByte b) = lowerByte b := by decide

/-- Lower-casing keeps a byte outside the URL separators. -/
theorem lowerByte_notSep : ∀ b : Byte, notSepB b = true → notSepB (lowerByte b) = true := by
  decide

/-- Lower-casing preserves letterhood. -/
theorem lowerByte_alpha : ∀ b : Byte, isAlphaB (lowerByte b) = isAlphaB b := by decide

/-- Lower-casing preserves scheme-byte-hood. -/
theorem lowerByte_schemeChar : ∀ b : Byte,
    isSchemeCharB (lowerByte b) = isSchemeCharB b := by decide

/-- A scheme byte is not a colon. -/
theorem schemeChar_ne_colon : ∀ b : Byte, isSchemeCharB b = true → ¬ b = bCOLON := by decide

/-- A letter is a scheme byte and not a colon. -/
theorem alpha_facts : ∀ b : Byte, isAlphaB b = true → (isSchemeCharB b = true ∧ ¬ b = bCOLON) := by
  decide

/-- A digit byte does not terminate a port. -/
theorem digit_notPortEnd : ∀ b : Byte, isDigitB b = true → notPortEndB b = true := by decide

/-- Hex digit emission round-trips for values below 16. -/
theorem hexDigit_roundtrip (n : Nat) (h : n < 16) :
    isHexDigitB (hexDigitB n) = true ∧ hexValB (hexDigitB n) = n := by
  interval_cases n <;> exact ⟨rfl, rfl⟩

/-- Bytes appearing in `encodeURIComponent` output: unreserved, `%`, or hex. -/
theorem mem_percentEncodeByte (b c : Byte) (h : c ∈ percentEncodeByte b) :
    isUnreservedURIB c = true ∨ c = bPCT ∨ isHexDigitB c = true := by
  by_cases hu : isUnreservedURIB b = true
  · simp only [percentEncodeByte, if_pos hu, List.mem_singleton] at h
    exact Or.inl (h ▸ hu)
  · simp only [percentEncodeByte, if_neg hu, List.mem_cons, List.not_mem_nil, or_false] at h
    rcases h with h | h | h
    · exact Or.inr (Or.inl h)
    · refine Or.inr (Or.inr ?_)
      rw [h]
      exact (hexDigit_roundtrip (b.val / 16) (by omega)).1
    · refine Or.inr (Or.inr ?_)
      rw [h]
      exact (hexDigit_roundtrip (b.val % 16) (by omega)).1

/-- Encoded-output bytes avoid the query/URL structure characters. -/
theorem encClass_ne : ∀ c : Byte,
    (isUnreservedURIB c = true ∨ c = bPCT ∨ isHexDigitB c = true) →
      (¬ c = bAMP ∧ ¬ c = bEQ ∧ ¬ c = bHASH ∧ ¬ c = bSLASH ∧ ¬ c = bQMARK) := by decide

/-- An unreserved byte is neither `%` nor `+`. -/
theorem unres_ne : ∀ b : Byte, isUnreservedURIB b = true → (¬ b = bPCT ∧ ¬ b = bPLUS) := by
  decide

/-- Decoding steps over a non-`%` head byte. -/
theorem formDecode_cons_notPct (b : Byte) (t : ByteStr) (h : ¬ b = bPCT) :
    formDecode (b :: t) = plusToSpace b :: formDecode t := by
  cases t with
  | nil => simp [formDecode]
  | cons c1 t1 =>
    cases t1 with
    | nil => simp [formDecode]
    | cons c2 t2 =>
      have hc : (b = bPCT && isHexDigitB c1 && isHexDigitB c2) = false := by
        simp [h]
      simp [formDecode, hc]

/-- Decoding a valid escape yields the byte. -/
theorem formDecode_escape (h1 h2 : Byte) (t : ByteStr)
    (hh : (isHexDigitB h1 && isHexDigitB h2) = true) :
    formDecode (bPCT :: h1 :: h2 :: t)
      = Fin.ofNat (hexValB h1 * 16 + hexValB h2) :: formDecode t := by
  simp [formDecode, hh]

/-- Form-decoding inverts `encodeURIComponent`. -/
theorem formDecode_encodeURIComponent (s : ByteStr) :
    formDecode (encodeURIComponent s) = s := by
  induction s with
  | nil => rfl
  | cons b t ih =>
    have henc : encodeURIComponent (b :: t)
        = percentEncodeByte b ++ encodeURIComponent t := by
      simp [encodeURIComponent]
    rw [henc]
    by_cases hu : isUnreservedURIB b = true
    · have hne := unres_ne b hu
      have hpe : percentEncodeByte b = [b] := by simp [percentEncodeByte, hu]
      rw [hpe, List.singleton_append, formDecode_cons_notPct b _ hne.1]
      rw [show plusToSpace b = b from by simp [plusToSpace, hne.2], ih]
    · have hpe : percentEncodeByte b
          = [bPCT, hexDigitB (b.val / 16), hexDigitB (b.val % 16)] := by
        simp [percentEncodeByte, hu]
      have hhi := hexDigit_roundtrip (b.val / 16) (by omega)
      have hlo := hexDigit_roundtrip (b.val % 16) (by omega)
      rw [hpe]
      have happ : ([bPCT, hexDigitB (b.val / 16), hexDigitB (b.val % 16)] : ByteStr)
          ++ encodeURIComponent t
          = bPCT :: hexDigitB (b.val / 16) :: hexDigitB (b.val % 16)
              :: encodeURIComponent t := by rfl
      rw [happ, formDecode_escape _ _ _ (by rw [hhi.1, hlo.1]; rfl)]
      rw [hhi.2, hlo.2, ih]
      congr 1
      apply Fin.eq_of_val_eq
      show (b.val / 16 * 16 + b.val % 16) % 256 = b.val
      have hb := b.isLt
      omega


/-- Counting drafts produced by a rule list: a rule contributes one draft
matching `q` exactly when it triggers and its draft satisfies `q`. -/
theorem countP_filterMap_draftOfRule (rules : List RuleDef) (page : PageAnalysisInput)
    (extra : Option ExtraAnalysisInput) (q : IssueDraft → Bool) :
    (rules.filterMap (fun rule => draftOfRule rule page extra)).countP q
      = rules.countP (fun rule =>
          (rule.evaluate page extra).1 && q (mkDraft rule page extra)) := by
  induction rules with
  | nil => rfl
  | cons r rs ih =>
    have hstep : List.filterMap (fun rule => draftOfRule rule page extra) (r :: rs)
        = (if (r.evaluate page extra).1 then [mkDraft r page extra] else [])
            ++ List.filterMap (fun rule => draftOfRule rule page extra) rs := by
      by_cases h : (r.evaluate page extra).1 = true
      · simp [List.filterMap_cons, draftOfRule, h]
      · simp only [Bool.not_eq_true] at h
        simp [List.filterMap_cons, draftOfRule, h]
    rw [hstep]
    by_cases h : (r.evaluate page extra).1 = true
    · simp [h, List.countP_append, List.countP_cons, ih, Nat.add_comm]
    · simp only [Bool.not_eq_true] at h
      simp [h, List.countP_append, List.countP_cons, ih]

/-- Membership in the drafts produced by a rule list. -/
theorem mem_filterMap_draftOfRule {rules : List RuleDef} {page : PageAnalysisInput}
    {extra : Option ExtraAnalysisInput} {d : IssueDraft}
    (hd : d ∈ rules.filterMap (fun rule => draftOfRule rule page extra)) :
    ∃ rule ∈ rules, d = mkDraft rule page extra := by
  rcases List.mem_filterMap.mp hd with ⟨rule, hrule, hopt⟩
  refine ⟨rule, hrule, ?_⟩
  unfold draftOfRule at hopt
  by_cases h : (rule.evaluate page extra).1 = true
  · rw [if_pos h] at hopt
    exact (Option.some_inj.mp hopt).symm
  · simp only [Bool.not_eq_true] at h
    rw [h] at hopt
    simp at hopt

/-- Every rule in `RULES` carries the severity the spec assigns to its type. -/
theorem rules_severity_spec : ∀ rule ∈ RULES, rule.severity = specSeverity rule.type := by
  intro rule hrule
  simp only [RULES, List.mem_cons, List.not_mem_nil, or_false] at hrule
  rcases hrule with rfl | rfl | rfl | rfl | rfl | rfl | rfl | rfl | rfl | rfl | rfl | rfl | rfl <;> rfl

/-- Claim C5: `evaluatePageIssues` returns exactly one issue draft per rule
whose trigger holds and no others, each carrying the rule's spec severity.
Triggers, counted over all inputs: STATUS_4XX_5XX iff statusCode >= 400,
STATUS_3XX_REDIRECT iff 300 <= statusCode < 400, REDIRECT_CHAIN_LONG iff the
redirect chain length >= 3, MISSING_TITLE iff the title is empty after trim,
TITLE_TOO_LONG iff the (trimmed) title length > 60, TITLE_TOO_SHORT iff that
length is in (0, 10), MISSING_META_DESCRIPTION iff the meta description is
empty (after trim), H1_MISSING iff h1Count = 0, H1_MULTIPLE iff h1Count > 1,
CANONICAL_MISSING iff canonical is empty (after trim), ROBOTS_NOINDEX iff the
robots meta contains noindex case-insensitively, THIN_CONTENT iff wordCount is
known and < 150, IMAGES_MISSING_ALT iff imagesMissingAlt > 0; absent numeric
fields default to 0 as in the source; DUPLICATE_TITLE (a global rule) is never
emitted per page. -/
theorem evaluatePageIssues_spec (page : PageAnalysisInput) (extra : Option ExtraAnalysisInput) :
    ((evaluatePageIssues page extra).countP (fun d => d.type == .STATUS_4XX_5XX)
        = if 400 ≤ page.statusCode.getD 0 then 1 else 0)
    ∧ ((evaluatePageIssues page extra).countP (fun d => d.type == .STATUS_3XX_REDIRECT)
        = if 300 ≤ page.statusCode.getD 0 ∧ page.statusCode.getD 0 < 400 then 1 else 0)
    ∧ ((evaluatePageIssues page extra).countP (fun d => d.type == .REDIRECT_CHAIN_LONG)
        = if 3 ≤ (page.redirectChainJson.getD []).length then 1 else 0)
    ∧ ((evaluatePageIssues page extra).countP (fun d => d.type == .MISSING_TITLE)
        = if (page.title.getD "").trim = "" then 1 else 0)
    ∧ ((evaluatePageIssues page extra).countP (fun d => d.type == .TITLE_TOO_LONG)
        = if 60 < (page.title.getD "").trim.length then 1 else 0)
    ∧ ((evaluatePageIssues page extra).countP (fun d => d.type == .TITLE_TOO_SHORT)
        = if 0 < (page.title.getD "").trim.length ∧ (page.title.getD "").trim.length < 10
          then 1 else 0)
    ∧ ((evaluatePageIssues page extra).countP (fun d => d.type == .MISSING_META_DESCRIPTION)
        = if (page.metaDescription.getD "").trim = "" then 1 else 0)
    ∧ ((evaluatePageIssues page extra).countP (fun d => d.type == .H1_MISSING)
        = if page.h1Count.getD 0 = 0 then 1 else 0)
    ∧ ((evaluatePageIssues page extra).countP (fun d => d.type == .H1_MULTIPLE)
        = if 1 < page.h1Count.getD 0 then 1 else 0)
    ∧ ((evaluatePageIssues page extra).countP (fun d => d.type == .CANONICAL_MISSING)
        = if (page.canonical.getD "").trim = "" then 1 else 0)
    ∧ ((evaluatePageIssues page extra).countP (fun d => d.type == .ROBOTS_NOINDEX)
        = if stringIncludes (lowerString (page.robotsMeta.getD "")) "noindex" = true
          then 1 else 0)
    ∧ ((evaluatePageIssues page extra).countP (fun d => d.type == .THIN_CONTENT)
        = if page.wordCount.isSome = true ∧ page.wordCount.getD 0 < 150 then 1 else 0)
    ∧ ((evaluatePageIssues page extra).countP (fun d => d.type == .IMAGES_MISSING_ALT)
        = if 0 < (extra.bind (fun e => e.imagesMissingAlt)).getD 0 then 1 else 0)
    ∧ ((evaluatePageIssues page extra).countP (fun d => d.type == .DUPLICATE_TITLE) = 0)
    ∧ (∀ d ∈ evaluatePageIssues page extra, d.severity = specSeverity d.type) := by
  refine ⟨?_, ?_, ?_, ?_, ?_, ?_, ?_, ?_, ?_, ?_, ?_, ?_, ?_, ?_, ?_⟩
  pick_goal 15
  · intro d hd
    rcases mem_filterMap_draftOfRule hd with ⟨rule, hrule, rfl⟩
    simpa [mkDraft] using rules_severity_spec rule hrule
  all_goals
    rw [evaluatePageIssues, countP_filterMap_draftOfRule]
    simp [RULES, List.countP_cons, rule_STATUS_4XX_5XX, rule_STATUS_3XX_REDIRECT,
      rule_REDIRECT_CHAIN_LONG, rule_MISSING_TITLE, rule_TITLE_TOO_LONG, rule_TITLE_TOO_SHORT,
      rule_MISSING_META_DESCRIPTION, rule_H1_MISSING, rule_H1_MULTIPLE, rule_CANONICAL_MISSING,
      rule_ROBOTS_NOINDEX, rule_THIN_CONTENT, rule_IMAGES_MISSING_ALT, mkDraft]

/-- Mapping a function that fixes every element of a list is the identity. -/
theorem map_eq_self_of {α : Type} (l : List α) (f : α → α) (h : ∀ x ∈ l, f x = x) :
    l.map f = l := by
  induction l with
  | nil => rfl
  | cons a t ih =>
    rw [List.map_cons, h a (List.mem_cons_self a t),
      ih (fun x hx => h x (List.mem_cons_of_mem a hx))]

/-- Bumping every entry with key `k` raises the value sum by the number of
entries with key `k`. -/
theorem sum_map_bump (d : List (Nat × Nat)) (k : Nat) :
    ((d.map (fun x => if x.1 = k then (k, x.2 + 1) else x)).map (fun e => e.2)).sum
      = (d.map (fun e => e.2)).sum + d.countP (fun x => decide (x.1 = k)) := by
  induction d with
  | nil => rfl
  | cons e d ih =>
    simp only [List.map_cons, List.sum_cons, List.countP_cons]
    by_cases he : e.1 = k
    · rw [if_pos he, ih]
      simp [he] <;> omega
    · rw [if_neg he, ih]
      simp [he] <;> omega

/-- The bump map does not change the keys of the association list. -/
theorem keys_map_bump (d : List (Nat × Nat)) (k : Nat) :
    (d.map (fun x => if x.1 = k then (k, x.2 + 1) else x)).map Prod.fst
      = d.map Prod.fst := by
  rw [List.map_map]
  refine List.map_congr_left ?_
  intro x _
  by_cases hx : x.1 = k
  · simp [hx]
  · simp [hx]

/-- The increment step of the status distribution keeps keys duplicate-free
and raises the value sum by exactly one. -/
theorem distIncr_sum_keys (d : List (Nat × Nat)) (k : Nat)
    (h : (d.map Prod.fst).Nodup) :
    ((distIncr d k).map Prod.fst).Nodup
    ∧ ((distIncr d k).map (fun e => e.2)).sum
        = ((d.map (fun e => e.2)).sum) + 1 := by
  by_cases hany : d.any (fun e => decide (e.1 = k)) = true
  · have hcount1 : d.countP (fun x => decide (x.1 = k)) = 1 := by
      have hle : (d.map Prod.fst).count k ≤ 1 := List.nodup_iff_count_le_one.mp h k
      have hpos : 0 < (d.map Prod.fst).count k := by
        obtain ⟨e0, he0, hk0⟩ := List.any_eq_true.mp hany
        refine List.count_pos_iff.mpr ?_
        exact List.mem_map.mpr ⟨e0, he0, by simpa using hk0⟩
      have hcnt : (d.map Prod.fst).count k = d.countP (fun x => decide (x.1 = k)) := by
        rw [List.count_eq_countP, List.countP_map]
        refine List.countP_congr ?_
        intro x _
        simp [Function.comp]
      omega
    have hdistIncr : distIncr d k
        = d.map (fun x => if x.1 = k then (k, x.2 + 1) else x) := by
      simp only [distIncr]
      rw [if_pos hany]
    constructor
    · rw [hdistIncr, keys_map_bump]
      exact h
    · rw [hdistIncr, sum_map_bump, hcount1]
  · have hnotmem : k ∉ d.map Prod.fst := by
      intro hmem
      obtain ⟨e0, he0, hk0⟩ := List.mem_map.mp hmem
      exact hany (List.any_eq_true.mpr ⟨e0, he0, by simp [hk0]⟩)
    have hdistIncr : distIncr d k = d ++ [(k, 1)] := by
      simp only [distIncr]
      rw [if_neg hany]
    constructor
    · rw [hdistIncr, List.map_append]
      refine List.Nodup.append h (List.nodup_singleton k) ?_
      intro x hx hx1
      simp only [List.map_cons, List.map_nil, List.mem_singleton] at hx1
      exact hnotmem (hx1 ▸ hx)
    · rw [hdistIncr, List.map_append, List.sum_append]
      simp

/-- Folding the distribution step over pages from any duplicate-free
accumulator counts exactly the pages with a known status. -/
theorem statusCodeDistribution_foldl_spec (pages : List PageRowPP) :
    ∀ d : List (Nat × Nat), (d.map Prod.fst).Nodup →
      ((pages.foldl (fun dist page =>
          match page.statusCode with
          | some s => distIncr dist s
          | none => dist) d).map (fun e => e.2)).sum
        = (d.map (fun e => e.2)).sum
            + (pages.filter (fun p => p.statusCode.isSome)).length
      ∧ ((pages.foldl (fun dist page =>
          match page.statusCode with
          | some s => distIncr dist s
          | none => dist) d).map Prod.fst).Nodup := by
  induction pages with
  | nil => intro d hd; simpa using hd
  | cons p ps ih =>
    intro d hd
    cases hp : p.statusCode with
    | none =>
      have h2 := ih d hd
      have hflt : (List.filter (fun q => q.statusCode.isSome) (p :: ps))
          = List.filter (fun q => q.statusCode.isSome) ps := by
        simp [List.filter_cons, hp]
      simp only [List.foldl_cons, hp, hflt]
      exact h2
    | some s =>
      have hstep := distIncr_sum_keys d s hd
      have h2 := ih (distIncr d s) hstep.1
      have hflt : (List.filter (fun q => q.statusCode.isSome) (p :: ps)).length
          = (List.filter (fun q => q.statusCode.isSome) ps).length + 1 := by
        simp [List.filter_cons, hp]
      simp only [List.foldl_cons, hp, hflt]
      refine ⟨?_, h2.2⟩
      rw [h2.1, hstep.2]
      omega

/-- Folding the broken-link step from any accumulator appends one
`(id, status)` pair per internal link whose target resolves to >= 400. -/
theorem brokenLinkUpdates_go (pm : List (String × Nat)) :
    ∀ (ils : List LinkRowPP) (acc : List (Nat × Nat)),
      ils.foldl (fun upd link =>
        match mapGet pm link.toNormalizedUrl with
        | some s => if 400 ≤ s then upd ++ [(link.id, s)] else upd
        | none => upd) acc
      = acc ++ ils.filterMap (fun link =>
          match mapGet pm link.toNormalizedUrl with
          | some s => if 400 ≤ s then some (link.id, s) else none
          | none => none) := by
  intro ils
  induction ils with
  | nil => intro acc; simp
  | cons x l ih =>
    intro acc
    rw [List.foldl_cons, List.filterMap_cons]
    cases h : mapGet pm x.toNormalizedUrl with
    | none =>
      simp only [h]
      rw [ih acc]
    | some s =>
      by_cases hs : 400 ≤ s
      · simp only [h, if_pos hs]
        rw [ih (acc ++ [(x.id, s)])]
        simp
      · simp only [h, if_neg hs]
        rw [ih acc]

/-- `brokenLinkUpdates` collects, in order, one `(id, status)` pair per
internal link whose target resolves to a status >= 400. -/
theorem brokenLinkUpdates_eq (pm : List (String × Nat)) (ils : List LinkRowPP) :
    brokenLinkUpdates pm ils = ils.filterMap (fun link =>
      match mapGet pm link.toNormalizedUrl with
      | some s => if 400 ≤ s then some (link.id, s) else none
      | none => none) := by
  have h := brokenLinkUpdates_go pm ils []
  simpa [brokenLinkUpdates] using h

/-- `pageStatusMap` folded from an accumulator disjoint from the remaining
page URLs appends one entry per page with a known status. -/
theorem pageStatusMap_go (pages : List PageRowPP) :
    ∀ (m : List (String × Nat)),
      (∀ p ∈ pages, ∀ e ∈ m, e.1 ≠ p.normalizedUrl) →
      (pages.map (fun p => p.normalizedUrl)).Nodup →
      pages.foldl (fun m page => match page.statusCode with
        | some s => mapSet m page.normalizedUrl s
        | none => m) m
      = m ++ pages.filterMap (fun p => p.statusCode.map (fun s => (p.normalizedUrl, s))) := by
  induction pages with
  | nil => intro m _ _; simp
  | cons p ps ih =>
    intro m hdisj hnd
    rw [List.map_cons, List.nodup_cons] at hnd
    cases hp : p.statusCode with
    | none =>
      rw [List.foldl_cons]
      simp only [hp]
      rw [ih m (fun q hq e he => hdisj q (List.mem_cons_of_mem p hq) e he) hnd.2]
      simp [List.filterMap_cons, hp]
    | some s =>
      have hset : mapSet m p.normalizedUrl s = m ++ [(p.normalizedUrl, s)] := by
        have hany : m.any (fun e => decide (e.1 = p.normalizedUrl)) = false := by
          by_contra hc
          obtain ⟨e0, he0, hk0⟩ :=
            List.any_eq_true.mp (Bool.eq_true_of_ne_false (fun h0 => hc h0))
          exact hdisj p (List.mem_cons_self p ps) e0 he0 (by simpa using hk0)
        simp only [mapSet]
        rw [if_neg]
        simp [hany]
      rw [List.foldl_cons]
      simp only [hp, hset]
      have hdisj2 : ∀ q ∈ ps, ∀ e ∈ m ++ [(p.normalizedUrl, s)], e.1 ≠ q.normalizedUrl := by
        intro q hq e he
        rcases List.mem_append.mp he with hm | hone
        · exact hdisj q (List.mem_cons_of_mem p hq) e hm
        · have he1 : e = (p.normalizedUrl, s) := by simpa using hone
          subst he1
          intro hcontra
          have hc2 : p.normalizedUrl = q.normalizedUrl := hcontra
          exact hnd.1 (by
            rw [hc2]
            exact List.mem_map_of_mem (fun p => p.normalizedUrl) hq)
      rw [ih (m ++ [(p.normalizedUrl, s)]) hdisj2 hnd.2]
      simp [List.filterMap_cons, hp]

/-- `pageStatusMap` on duplicate-free page URLs: one entry per page with a
known status, in page order. -/
theorem pageStatusMap_eq (pages : List PageRowPP)
    (hnd : (pages.map (fun p => p.normalizedUrl)).Nodup) :
    pageStatusMap pages
      = pages.filterMap (fun p => p.statusCode.map (fun s => (p.normalizedUrl, s))) := by
  have h := pageStatusMap_go pages [] (by simp) hnd
  simpa [pageStatusMap] using h

/-- Lookup in the per-page status association list built by `filterMap`. -/
theorem mapGet_filterMap_pages :
    ∀ (ps : List PageRowPP),
      (ps.map (fun p => p.normalizedUrl)).Nodup →
      ∀ (k : String) (s : Nat),
        (mapGet (ps.filterMap (fun p => p.statusCode.map (fun s => (p.normalizedUrl, s)))) k
            = some s
          ↔ ∃ p ∈ ps, p.normalizedUrl = k ∧ p.statusCode = some s) := by
  intro ps
  induction ps with
  | nil => intro _ k s; simp [mapGet]
  | cons p ps ih =>
    intro hnd k s
    rw [List.map_cons, List.nodup_cons] at hnd
    cases hp : p.statusCode with
    | none =>
      have hred : (p :: ps).filterMap (fun p => p.statusCode.map (fun s => (p.normalizedUrl, s)))
          = ps.filterMap (fun p => p.statusCode.map (fun s => (p.normalizedUrl, s))) := by
        rw [List.filterMap_cons, hp]
        rfl
      rw [hred, ih hnd.2 k s]
      constructor
      · rintro ⟨q, hq, hqk, hqs⟩
        exact ⟨q, List.mem_cons_of_mem p hq, hqk, hqs⟩
      · rintro ⟨q, hq, hqk, hqs⟩
        rcases List.mem_cons.mp hq with rfl | hq2
        · rw [hp] at hqs; cases hqs
        · exact ⟨q, hq2, hqk, hqs⟩
    | some s0 =>
      have hred : (p :: ps).filterMap (fun p => p.statusCode.map (fun s => (p.normalizedUrl, s)))
          = (p.normalizedUrl, s0)
              :: ps.filterMap (fun p => p.statusCode.map (fun s => (p.normalizedUrl, s))) := by
        rw [List.filterMap_cons, hp]
        rfl
      rw [hred]
      by_cases hk : p.normalizedUrl = k
      · have hfind : mapGet ((p.normalizedUrl, s0) ::
            ps.filterMap (fun p => p.statusCode.map (fun s => (p.normalizedUrl, s)))) k
            = some s0 := by
          simp [mapGet, List.find?_cons, hk]
        rw [hfind]
        constructor
        · intro hss
          exact ⟨p, List.mem_cons_self p ps, hk, by rw [hp, Option.some_inj.mp hss]⟩
        · rintro ⟨q, hq, hqk, hqs⟩
          rcases List.mem_cons.mp hq with rfl | hq2
          · rw [hp] at hqs
            exact congrArg some (Option.some_inj.mp hqs)
          · exfalso
            refine hnd.1 ?_
            rw [hk, ← hqk]
            exact List.mem_map_of_mem (fun p => p.normalizedUrl) hq2
      · have hfind : mapGet ((p.normalizedUrl, s0) ::
            ps.filterMap (fun p => p.statusCode.map (fun s => (p.normalizedUrl, s)))) k
            = mapGet (ps.filterMap (fun p => p.statusCode.map (fun s => (p.normalizedUrl, s)))) k := by
          simp [mapGet, List.find?_cons, hk]
        rw [hfind, ih hnd.2 k s]
        constructor
        · rintro ⟨q, hq, hqk, hqs⟩
          exact ⟨q, List.mem_cons_of_mem p hq, hqk, hqs⟩
        · rintro ⟨q, hq, hqk, hqs⟩
          rcases List.mem_cons.mp hq with rfl | hq2
          · exact absurd hqk hk
          · exact ⟨q, hq2, hqk, hqs⟩

/-- `Map.get` on `pageStatusMap`: under the uniqueness of normalized URLs a
lookup returns `some s` exactly when the run has a page with that URL and
known status `s`. -/
theorem mapGet_pageStatusMap (pages : List PageRowPP)
    (hnd : (pages.map (fun p => p.normalizedUrl)).Nodup) (k : String) (s : Nat) :
    mapGet (pageStatusMap pages) k = some s
      ↔ ∃ p ∈ pages, p.normalizedUrl = k ∧ p.statusCode = some s := by
  rw [pageStatusMap_eq pages hnd]
  exact mapGet_filterMap_pages pages hnd k s

/-- `setBroken` keeps the link id. -/
theorem setBroken_id (l : LinkRowPP) (s : Nat) : (setBroken l s).id = l.id := rfl

/-- Setting broken twice keeps only the last status. -/
theorem setBroken_setBroken (l : LinkRowPP) (s t : Nat) :
    setBroken (setBroken l s) t = setBroken l t := rfl

/-- Applying the collected updates rewrites each link by the last update
addressing its id. -/
theorem applyBrokenLinkUpdates_eq :
    ∀ (updates : List (Nat × Nat)) (links : List LinkRowPP),
      applyBrokenLinkUpdates links updates
        = links.map (fun l =>
            match (updates.filter (fun u => u.1 = l.id)).getLast? with
            | some u => setBroken l u.2
            | none => l) := by
  intro updates
  induction updates with
  | nil =>
    intro links
    simp only [applyBrokenLinkUpdates, List.foldl_nil, List.filter_nil]
    symm
    apply map_eq_self_of
    intro x _
    rfl
  | cons u us ih =>
    intro links
    have hstep : applyBrokenLinkUpdates links (u :: us)
        = applyBrokenLinkUpdates
            (links.map (fun l => if l.id = u.1 then setBroken l u.2 else l)) us := by
      simp [applyBrokenLinkUpdates, List.foldl_cons]
    refine (hstep.trans ((ih (links.map (fun l => if l.id = u.1 then setBroken l u.2 else l))).trans ?_))
    rw [List.map_map]
    refine List.map_congr_left ?_
    intro l _
    simp only [Function.comp]
    by_cases hl : l.id = u.1
    · have hif : (if l.id = u.1 then setBroken l u.2 else l) = setBroken l u.2 := if_pos hl
      have hfilter : (u :: us).filter (fun v => v.1 = l.id)
          = u :: us.filter (fun v => v.1 = l.id) := by
        simp [List.filter_cons, hl.symm]
      simp only [hif, setBroken_id, hfilter]
      cases hgl : (us.filter (fun v => v.1 = l.id)).getLast? with
      | none =>
        have hnil : us.filter (fun v => v.1 = l.id) = [] :=
          List.getLast?_eq_none_iff.mp hgl
        simp only [hnil]
        rfl
      | some w =>
        cases hsplit : us.filter (fun v => v.1 = l.id) with
        | nil =>
          rw [hsplit] at hgl
          simp at hgl
        | cons v vs =>
          rw [hsplit] at hgl
          simp only [List.getLast?_cons_cons, hgl, setBroken_setBroken]
    · have hif : (if l.id = u.1 then setBroken l u.2 else l) = l := if_neg hl
      have hfilter : (u :: us).filter (fun v => v.1 = l.id)
          = us.filter (fun v => v.1 = l.id) := by
        rw [List.filter_cons, if_neg]
        simp only [decide_eq_true_eq]
        exact fun h => hl h.symm
      simp only [hif, hfilter]

/-- Membership in the collected broken-link updates. -/
theorem mem_brokenLinkUpdates (pm : List (String × Nat)) (ils : List LinkRowPP)
    (u : Nat × Nat) :
    u ∈ brokenLinkUpdates pm ils
      ↔ ∃ link ∈ ils, link.id = u.1
          ∧ mapGet pm link.toNormalizedUrl = some u.2 ∧ 400 ≤ u.2 := by
  rw [brokenLinkUpdates_eq, List.mem_filterMap]
  constructor
  · rintro ⟨link, hlink, hf⟩
    cases h : mapGet pm link.toNormalizedUrl with
    | none =>
      simp only [h] at hf
      cases hf
    | some s =>
      simp only [h] at hf
      by_cases hs : 400 ≤ s
      · rw [if_pos hs] at hf
        have hu : (link.id, s) = u := Option.some_inj.mp hf
        subst hu
        exact ⟨link, hlink, rfl, h, hs⟩
      · rw [if_neg hs] at hf
        cases hf
  · rintro ⟨link, hlink, hid, hmap, hs⟩
    refine ⟨link, hlink, ?_⟩
    simp only [hmap]
    rw [if_pos hs, hid]

/-- Claim C1 (assuming the data-model uniqueness of `(crawlRunId,
normalizedUrl)` for pages, primary-key uniqueness of link ids, and that links
enter post-processing with their initial `isBroken = false`, `statusCode =
null`): after `postProcessCrawl` an INTERNAL link has `isBroken = true` if and
only if some Page row of the run has `normalizedUrl` equal to the link's
`toNormalizedUrl` with a known status >= 400; such a link's `statusCode` is
set to the target page's status; every internal link without such a target
keeps `isBroken = false` and `statusCode = null`. -/
theorem postProcessCrawl_brokenLinks_spec (pages : List PageRowPP) (links : List LinkRowPP)
    (hpages : (pages.map (fun p => p.normalizedUrl)).Nodup)
    (hids : (links.map (fun l => l.id)).Nodup)
    (hinit : ∀ l ∈ links, l.isBroken = false ∧ l.statusCode = none) :
    ∀ l ∈ (postProcessCrawl pages links).2,
      l.linkType = LinkType.INTERNAL →
        ((l.isBroken = true
            ↔ ∃ p ∈ pages, p.normalizedUrl = l.toNormalizedUrl
                ∧ ∃ s, p.statusCode = some s ∧ 400 ≤ s)
          ∧ (∀ p ∈ pages, p.normalizedUrl = l.toNormalizedUrl →
              (∃ s, p.statusCode = some s ∧ 400 ≤ s) → l.statusCode = p.statusCode)
          ∧ ((¬ ∃ p ∈ pages, p.normalizedUrl = l.toNormalizedUrl
                ∧ ∃ s, p.statusCode = some s ∧ 400 ≤ s)
              → l.isBroken = false ∧ l.statusCode = none)) := by
  intro l hl hint
  have hfinal : (postProcessCrawl pages links).2
      = applyBrokenLinkUpdates links
          (brokenLinkUpdates (pageStatusMap pages)
            (links.filter (fun l => l.linkType = LinkType.INTERNAL))) := by
    simp only [postProcessCrawl]
  rw [hfinal, applyBrokenLinkUpdates_eq] at hl
  obtain ⟨l0, hl0, hFl0⟩ := List.mem_map.mp hl
  have hinj : ∀ x ∈ links, ∀ y ∈ links, x.id = y.id → x = y :=
    List.inj_on_of_nodup_map hids
  cases hflt : ((brokenLinkUpdates (pageStatusMap pages)
      (links.filter (fun l => l.linkType = LinkType.INTERNAL))).filter
        (fun v => v.1 = l0.id)).getLast? with
  | none =>
    rw [hflt] at hFl0
    have hll0 : l = l0 := hFl0.symm
    subst hll0
    have hfltnil := List.getLast?_eq_none_iff.mp hflt
    have hnb : ¬ ∃ p ∈ pages, p.normalizedUrl = l.toNormalizedUrl
        ∧ ∃ s, p.statusCode = some s ∧ 400 ≤ s := by
      rintro ⟨p, hp, hpk, s, hps, hs400⟩
      have hmap : mapGet (pageStatusMap pages) l.toNormalizedUrl = some s :=
        (mapGet_pageStatusMap pages hpages l.toNormalizedUrl s).mpr ⟨p, hp, hpk, hps⟩
      have hupd : (l.id, s) ∈ brokenLinkUpdates (pageStatusMap pages)
          (links.filter (fun l => l.linkType = LinkType.INTERNAL)) := by
        refine (mem_brokenLinkUpdates _ _ _).mpr ⟨l, ?_, rfl, hmap, hs400⟩
        exact List.mem_filter.mpr ⟨hl0, by simp [hint]⟩
      have : (l.id, s) ∈ ((brokenLinkUpdates (pageStatusMap pages)
          (links.filter (fun l => l.linkType = LinkType.INTERNAL))).filter
            (fun v => v.1 = l.id)) :=
        List.mem_filter.mpr ⟨hupd, by simp⟩
      rw [hfltnil] at this
      cases this
    have hinitl := hinit l hl0
    refine ⟨?_, ?_, fun _ => hinitl⟩
    · constructor
      · intro hb
        rw [hinitl.1] at hb
        cases hb
      · intro htb
        exact absurd htb hnb
    · intro p hp hpk hex
      exact absurd ⟨p, hp, hpk, hex⟩ hnb
  | some w =>
    rw [hflt] at hFl0
    have hwmem : w ∈ ((brokenLinkUpdates (pageStatusMap pages)
        (links.filter (fun l => l.linkType = LinkType.INTERNAL))).filter
          (fun v => v.1 = l0.id)) := by
      have hw : w ∈ ((brokenLinkUpdates (pageStatusMap pages)
          (links.filter (fun l => l.linkType = LinkType.INTERNAL))).filter
            (fun v => v.1 = l0.id)).getLast? := by
        rw [Option.mem_def]
        exact hflt
      obtain ⟨hne, hwl⟩ := List.mem_getLast?_eq_getLast hw
      rw [hwl]
      exact List.getLast_mem hne
    have hwu := List.mem_filter.mp hwmem
    have hwid : w.1 = l0.id := by simpa using hwu.2
    obtain ⟨l1, hl1, hid1, hmap1, hs1⟩ := (mem_brokenLinkUpdates _ _ _).mp hwu.1
    have hl1links := List.mem_filter.mp hl1
    have hl1eq : l1 = l0 := hinj l1 hl1links.1 l0 hl0 (by rw [hid1, hwid])
    subst hl1eq
    have hleq : l = setBroken l1 w.2 := hFl0.symm
    obtain ⟨p, hp, hpk, hps⟩ :=
      (mapGet_pageStatusMap pages hpages l1.toNormalizedUrl w.2).mp hmap1
    have htb : ∃ q ∈ pages, q.normalizedUrl = l.toNormalizedUrl
        ∧ ∃ s, q.statusCode = some s ∧ 400 ≤ s := by
      refine ⟨p, hp, ?_, w.2, hps, hs1⟩
      rw [hleq]
      exact hpk
    refine ⟨?_, ?_, fun hn => absurd htb hn⟩
    · constructor
      · intro _
        exact htb
      · intro _
        rw [hleq]
        rfl
    · intro q hq hqk hex
      obtain ⟨s, hqs, _⟩ := hex
      have hqp : q = p := by
        have hkq : q.normalizedUrl = l1.toNormalizedUrl := by
          rw [hleq] at hqk
          exact hqk
        have hinjp : ∀ x ∈ pages, ∀ y ∈ pages,
            x.normalizedUrl = y.normalizedUrl → x = y :=
          List.inj_on_of_nodup_map hpages
        exact hinjp q hq p hp (by rw [hkq, hpk])
      subst hqp
      rw [hleq, hps]
      rfl

/-- Witness for C1: in a two-page run where an internal link points at a 404
page, post-processing marks that link broken with statusCode 404. -/
theorem postProcessCrawl_brokenLinks_spec_witness :
    ∃ l ∈ (postProcessCrawl
        [PageRowPP.mk "https://a.test/" (some 200),
         PageRowPP.mk "https://a.test/missing" (some 404)]
        [LinkRowPP.mk 1 LinkType.INTERNAL "https://a.test/missing" false none]).2,
      l.isBroken = true ∧ l.statusCode = some 404 := by
  have h := postProcessCrawl_brokenLinks_spec
    [PageRowPP.mk "https://a.test/" (some 200),
     PageRowPP.mk "https://a.test/missing" (some 404)]
    [LinkRowPP.mk 1 LinkType.INTERNAL "https://a.test/missing" false none]
    (by decide) (by decide) (by decide)
  have hfinal : (postProcessCrawl
      [PageRowPP.mk "https://a.test/" (some 200),
       PageRowPP.mk "https://a.test/missing" (some 404)]
      [LinkRowPP.mk 1 LinkType.INTERNAL "https://a.test/missing" false none]).2
      = [LinkRowPP.mk 1 LinkType.INTERNAL "https://a.test/missing" true (some 404)] := by
    decide
  have hmem : LinkRowPP.mk 1 LinkType.INTERNAL "https://a.test/missing" true (some 404)
      ∈ (postProcessCrawl
        [PageRowPP.mk "https://a.test/" (some 200),
         PageRowPP.mk "https://a.test/missing" (some 404)]
        [LinkRowPP.mk 1 LinkType.INTERNAL "https://a.test/missing" false none]).2 := by
    rw [hfinal]
    exact List.mem_singleton.mpr rfl
  refine ⟨LinkRowPP.mk 1 LinkType.INTERNAL "https://a.test/missing" true (some 404),
    hmem, ?_, rfl⟩
  exact ((h _ hmem rfl).1).mpr
    ⟨PageRowPP.mk "https://a.test/missing" (some 404), by decide, rfl, 404, rfl, by decide⟩

/-- Claim C9 counterexample: a run with one Page row whose statusCode is null
has statusCodeDistribution value sum 0 but pagesCount 1, so the sum does not
equal the number of Page rows of the run. -/
theorem postProcessCrawl_distribution_sum_counterexample :
    ((postProcessCrawl [PageRowPP.mk "https://a.test/err" none] []).1.statusCodeDistribution.map
        (fun e => e.2)).sum = 0
    ∧ (postProcessCrawl [PageRowPP.mk "https://a.test/err" none] []).1.pagesCount = 1 := by
  constructor <;> rfl

/-- Claim C9 amended: the sum of the statusCodeDistribution values equals the
number of the run's Page rows with a known (non-null) statusCode, while
totals.pagesCount counts all Page rows; the two coincide exactly on runs where
every page has a known status. -/
theorem postProcessCrawl_distribution_sum (pages : List PageRowPP) (links : List LinkRowPP) :
    (((postProcessCrawl pages links).1.statusCodeDistribution.map (fun e => e.2)).sum
      = (pages.filter (fun p => p.statusCode.isSome)).length)
    ∧ ((postProcessCrawl pages links).1.pagesCount = pages.length)
    ∧ ((∀ p ∈ pages, p.statusCode.isSome) →
        ((postProcessCrawl pages links).1.statusCodeDistribution.map (fun e => e.2)).sum
          = (postProcessCrawl pages links).1.pagesCount) := by
  have hmain := (statusCodeDistribution_foldl_spec pages [] (by simp)).1
  have hsum : ((postProcessCrawl pages links).1.statusCodeDistribution.map
      (fun e => e.2)).sum = (pages.filter (fun p => p.statusCode.isSome)).length := by
    simpa [postProcessCrawl, statusCodeDistribution] using hmain
  have hcount : (postProcessCrawl pages links).1.pagesCount = pages.length := by
    simp [postProcessCrawl]
  refine ⟨hsum, hcount, ?_⟩
  intro hall
  rw [hsum, hcount]
  have : pages.filter (fun p => p.statusCode.isSome) = pages :=
    List.filter_eq_self.mpr (fun p hp => by simpa using hall p hp)
  rw [this]

/-- Witness for the amended C9: on a run whose single page has status 200 the
distribution sum equals pagesCount. -/
theorem postProcessCrawl_distribution_sum_witness :
    ((postProcessCrawl [PageRowPP.mk "https://a.test/" (some 200)] []).1.statusCodeDistribution.map
        (fun e => e.2)).sum
      = (postProcessCrawl [PageRowPP.mk "https://a.test/" (some 200)] []).1.pagesCount := by
  exact (postProcessCrawl_distribution_sum [PageRowPP.mk "https://a.test/" (some 200)] []).2.2
    (by decide)

/-- `splitAmp` of an ampersand-free string is one segment. -/
theorem splitAmp_no_amp (s : ByteStr) (h : ∀ b ∈ s, ¬ b = bAMP) :
    splitAmp s = [s] := by
  induction s with
  | nil => rfl
  | cons b t ih =>
    have hb : ¬ b = bAMP := h b (List.mem_cons_self b t)
    have ht := ih (fun x hx => h x (List.mem_cons_of_mem b hx))
    simp [splitAmp, hb, ht]

/-- `splitAmp` across the first ampersand. -/
theorem splitAmp_append (s t : ByteStr) (h : ∀ b ∈ s, ¬ b = bAMP) :
    splitAmp (s ++ bAMP :: t) = s :: splitAmp t := by
  induction s with
  | nil => simp [splitAmp]
  | cons b s0 ih =>
    have hb : ¬ b = bAMP := h b (List.mem_cons_self b s0)
    have hs0 := ih (fun x hx => h x (List.mem_cons_of_mem b hx))
    simp [splitAmp, hb, hs0]

/-- `splitAmp` inverts `joinAmp` on ampersand-free segments. -/
theorem splitAmp_joinAmp :
    ∀ (segs : List ByteStr), segs ≠ [] →
      (∀ seg ∈ segs, ∀ b ∈ seg, ¬ b = bAMP) →
      splitAmp (joinAmp segs) = segs
  | [], h, _ => absurd rfl h
  | [s], _, h => by
    simp only [joinAmp]
    exact splitAmp_no_amp s (h s (List.mem_singleton.mpr rfl))
  | s :: s2 :: rest, _, h => by
    simp only [joinAmp]
    rw [splitAmp_append s _ (h s (List.mem_cons_self _ _))]
    rw [splitAmp_joinAmp (s2 :: rest) (by simp)
      (fun seg hseg => h seg (List.mem_cons_of_mem s hseg))]

/-- Encoded output avoids the URL structure separators. -/
theorem mem_encodeURIComponent_ne (s : ByteStr) (c : Byte) (hc : c ∈ encodeURIComponent s) :
    ¬ c = bAMP ∧ ¬ c = bEQ ∧ ¬ c = bHASH ∧ ¬ c = bSLASH ∧ ¬ c = bQMARK := by
  simp only [encodeURIComponent] at hc
  obtain ⟨b, _, hcb⟩ := List.mem_flatMap.mp hc
  exact encClass_ne c (mem_percentEncodeByte b c hcb)

/-- `encodeURIComponent` is empty only on the empty string. -/
theorem encode_nil_iff (s : ByteStr) : encodeURIComponent s = [] ↔ s = [] := by
  cases s with
  | nil => simp [encodeURIComponent]
  | cons b t =>
    constructor
    · intro h
      have happ : percentEncodeByte b ++ encodeURIComponent t = [] := by
        simpa [encodeURIComponent] using h
      have hpe : percentEncodeByte b = [] := (List.append_eq_nil.mp happ).1
      by_cases hu : isUnreservedURIB b = true <;> simp [percentEncodeByte, hu] at hpe
    · intro h
      cases h

/-- A rebuilt segment contains no ampersand. -/
theorem mem_serializePair_ne_amp (kv : ByteStr × ByteStr) :
    ∀ b ∈ serializePair kv, ¬ b = bAMP := by
  intro b hb
  by_cases hv : kv.2.isEmpty = true
  · rw [serializePair, if_pos hv] at hb
    exact (mem_encodeURIComponent_ne kv.1 b hb).1
  · rw [serializePair, if_neg hv] at hb
    rcases List.mem_append.mp hb with h | h
    · exact (mem_encodeURIComponent_ne kv.1 b h).1
    · rcases List.mem_cons.mp h with h | h
      · subst h
        decide
      · exact (mem_encodeURIComponent_ne kv.2 b h).1

/-- A rebuilt segment is empty only for the wholly-empty pair. -/
theorem serializePair_ne_nil (kv : ByteStr × ByteStr) (h : ¬(kv.1 = [] ∧ kv.2 = [])) :
    serializePair kv ≠ [] := by
  by_cases hv : kv.2.isEmpty = true
  · rw [serializePair, if_pos hv]
    intro h0
    refine h ⟨(encode_nil_iff kv.1).mp h0, ?_⟩
    cases hv2 : kv.2 with
    | nil => rfl
    | cons c cs => rw [hv2] at hv; cases hv
  · rw [serializePair, if_neg hv]
    intro h0
    rcases List.append_eq_nil.mp h0 with ⟨_, h2⟩
    cases h2

/-- `parsePair` inverts `serializePair` for pairs that are not wholly empty. -/
theorem parsePair_serializePair (kv : ByteStr × ByteStr) (h : ¬(kv.1 = [] ∧ kv.2 = [])) :
    parsePair (serializePair kv) = kv := by
  obtain ⟨k, v⟩ := kv
  by_cases hv : v = []
  · subst hv
    have hser : serializePair (k, ([] : ByteStr)) = encodeURIComponent k := by
      simp [serializePair]
    rw [hser]
    have htk := takeWhile_dropWhile_append (fun b => !(b = bEQ)) (encodeURIComponent k) []
      (fun x hx => by simp [(mem_encodeURIComponent_ne k x hx).2.1]) trivial
    rw [List.append_nil] at htk
    simp [parsePair, htk.1, htk.2, formDecode_encodeURIComponent]
  · have hser : serializePair (k, v) = encodeURIComponent k ++ bEQ :: encodeURIComponent v := by
      have : v.isEmpty = false := by cases v with | nil => exact absurd rfl hv | cons c cs => rfl
      simp [serializePair, this]
    rw [hser]
    have htk := takeWhile_dropWhile_append (fun b => !(b = bEQ)) (encodeURIComponent k)
      (bEQ :: encodeURIComponent v)
      (fun x hx => by simp [(mem_encodeURIComponent_ne k x hx).2.1]) (by simp)
    simp [parsePair, htk.1, htk.2, formDecode_encodeURIComponent]

/-- `filterMap` of a function that re-emits each element is the identity. -/
theorem filterMap_some_self {α : Type} (f : α → Option α) (l : List α)
    (h : ∀ x ∈ l, f x = some x) : l.filterMap f = l := by
  induction l with
  | nil => rfl
  | cons a t ih =>
    rw [List.filterMap_cons, h a (List.mem_cons_self a t),
      ih (fun x hx => h x (List.mem_cons_of_mem a hx))]

/-- `parseQuery` inverts the sort-and-rebuild step on pair lists without a
wholly-empty pair: the `URLSearchParams` round trip is the identity there. -/
theorem parseQuery_join_serialize (pairs : List (ByteStr × ByteStr))
    (h : ∀ kv ∈ pairs, ¬(kv.1 = [] ∧ kv.2 = [])) :
    parseQuery (joinAmp (pairs.map serializePair)) = pairs := by
  cases pairs with
  | nil => rfl
  | cons kv rest =>
    rw [parseQuery, splitAmp_joinAmp ((kv :: rest).map serializePair) (by simp)
      (fun seg hseg => by
        obtain ⟨kv2, _, hkv2⟩ := List.mem_map.mp hseg
        exact hkv2 ▸ mem_serializePair_ne_amp kv2)]
    rw [List.filterMap_map]
    refine filterMap_some_self _ _ ?_
    intro kv2 hkv2
    have hne := serializePair_ne_nil kv2 (h kv2 hkv2)
    have hemp : (serializePair kv2).isEmpty = false := by
      cases hs : serializePair kv2 with
      | nil => exact absurd hs hne
      | cons c cs => rfl
    simp only [Function.comp, hemp]
    rw [if_neg (by simp)]
    rw [parsePair_serializePair kv2 (h kv2 hkv2)]

/-- A byte failing the host scan is one of the four separators. -/
theorem notSep_false_cases : ∀ b : Byte, notSepB b = false →
    b = bCOLON ∨ b = bSLASH ∨ b = bQMARK ∨ b = bHASH := by decide

/-- A byte failing the port scan is a slash, question mark or hash. -/
theorem notPortEnd_false_cases : ∀ b : Byte, notPortEndB b = false →
    b = bSLASH ∨ b = bQMARK ∨ b = bHASH := by decide

/-- A byte failing the path scan is a question mark or hash. -/
theorem notPathEnd_false_cases : ∀ b : Byte, notPathEndB b = false →
    b = bQMARK ∨ b = bHASH := by decide

/-- Lower-casing preserves scheme validity. -/
theorem schemeOk_lower (s : ByteStr) : schemeOk (lowerByteStr s) = schemeOk s := by
  cases s with
  | nil => rfl
  | cons c cs =>
    show (isAlphaB (lowerByte c) && (cs.map lowerByte).all isSchemeCharB)
        = (isAlphaB c && cs.all isSchemeCharB)
    have hfun : (isSchemeCharB ∘ lowerByte) = isSchemeCharB := by
      funext x
      exact lowerByte_schemeChar x
    rw [lowerByte_alpha, List.all_map, hfun]

/-- Lower-casing a byte string twice is the same as once. -/
theorem lowerByteStr_idem (s : ByteStr) : lowerByteStr (lowerByteStr s) = lowerByteStr s := by
  simp only [lowerByteStr, List.map_map]
  refine List.map_congr_left ?_
  intro b _
  exact lowerByte_idem b

/-- A nonempty `takeWhile` output exposes the head of the input. -/
theorem takeWhile_head {α : Type} (p : α → Bool) (l : List α)
    (h : l.takeWhile p ≠ []) :
    ∃ c t, l = c :: t ∧ p c = true ∧ l.takeWhile p = c :: t.takeWhile p := by
  cases l with
  | nil => exact absurd rfl h
  | cons a t =>
    by_cases ha : p a = true
    · exact ⟨a, t, rfl, ha, by simp [List.takeWhile, ha]⟩
    · have ha2 : p a = false := by simpa using ha
      simp [List.takeWhile, ha2] at h

/-- The remainder after the port stage starts with `/`, `?` or `#` (if at
all), given the input came from the host scan. -/
theorem parsePort_rest_head (l : ByteStr)
    (hl : match l with | [] => True | c :: _ => notSepB c = false) :
    match (parsePort l).2 with
    | [] => True
    | c :: _ => c = bSLASH ∨ c = bQMARK ∨ c = bHASH := by
  cases l with
  | nil => trivial
  | cons c r =>
    by_cases hc : c = bCOLON
    · simp only [parsePort, if_pos hc]
      have hd := dropWhile_head_false notPortEndB r
      cases hdw : r.dropWhile notPortEndB with
      | nil => trivial
      | cons d t =>
        rw [hdw] at hd
        exact notPortEnd_false_cases d hd
    · simp only [parsePort, if_neg hc]
      simp only at hl
      rcases notSep_false_cases c hl with h | h | h | h
      · exact absurd h hc
      · exact Or.inl h
      · exact Or.inr (Or.inl h)
      · exact Or.inr (Or.inr h)

/-- The path produced by the path stage starts with a slash and contains no
`?` or `#`; the remainder starts with `?` or `#` if nonempty. -/
theorem parsePath_facts (rest4 : ByteStr)
    (hh : match rest4 with | [] => True | c :: _ => c = bSLASH ∨ c = bQMARK ∨ c = bHASH) :
    (∃ t, (parsePath rest4).1 = bSLASH :: t)
    ∧ (∀ b ∈ (parsePath rest4).1, notPathEndB b = true)
    ∧ (match (parsePath rest4).2 with
       | [] => True
       | c :: _ => c = bQMARK ∨ c = bHASH) := by
  have hd := dropWhile_head_false notPathEndB rest4
  have hrest : match (parsePath rest4).2 with
      | [] => True
      | c :: _ => c = bQMARK ∨ c = bHASH := by
    simp only [parsePath]
    cases hdw : rest4.dropWhile notPathEndB with
    | nil => trivial
    | cons d t =>
      rw [hdw] at hd
      exact notPathEnd_false_cases d hd
  by_cases hp : (rest4.takeWhile notPathEndB).isEmpty = true
  · refine ⟨⟨[], ?_⟩, ?_, hrest⟩
    · simp [parsePath, hp]
    · intro b hb
      simp only [parsePath, hp, if_pos, List.mem_singleton] at hb
      subst hb
      decide
  · have hne : rest4.takeWhile notPathEndB ≠ [] := by
      cases hx : rest4.takeWhile notPathEndB with
      | nil => rw [hx] at hp; exact absurd rfl hp
      | cons c t => simp
    obtain ⟨c, t, hrest4, hc, htw⟩ := takeWhile_head notPathEndB rest4 hne
    have hcs : c = bSLASH := by
      rw [hrest4] at hh
      simp only at hh
      rcases hh with h | h | h
      · exact h
      · rw [h] at hc; cases hc
      · rw [h] at hc; cases hc
    have hpath1 : (parsePath rest4).1 = rest4.takeWhile notPathEndB := by
      simp [parsePath, hp]
    refine ⟨⟨t.takeWhile notPathEndB, ?_⟩, ?_, hrest⟩
    · rw [hpath1, htw, hcs]
    · intro b hb
      rw [hpath1] at hb
      exact List.mem_takeWhile_imp hb

/-- The query produced by the query stage contains no hash. -/
theorem parseQF_facts (rest5 : ByteStr) :
    ∀ q, (parseQF rest5).1 = some q → ∀ b ∈ q, ¬ b = bHASH := by
  intro q hq b hb
  cases rest5 with
  | nil => cases hq
  | cons c r =>
    by_cases hc : c = bQMARK
    · simp only [parseQF, if_pos hc] at hq
      rw [Option.some_inj] at hq
      subst hq
      have := List.mem_takeWhile_imp hb
      simpa using this
    · simp only [parseQF, if_neg hc] at hq
      cases hq

/-- Parsing guarantees well-formedness up to the fragment. -/
theorem parseURL_facts (u : ByteStr) (r : URLRec) (h : parseURL u = some r) :
    schemeOk r.scheme = true
    ∧ lowerByteStr r.scheme = r.scheme
    ∧ r.host ≠ []
    ∧ (∀ b ∈ r.host, notSepB b = true)
    ∧ r.port.all isDigitB = true
    ∧ (∃ t, r.path = bSLASH :: t)
    ∧ (∀ b ∈ r.path, notPathEndB b = true)
    ∧ (∀ q, r.query = some q → ∀ b ∈ q, ¬ b = bHASH) := by
  by_cases hs : schemeOk (List.takeWhile (fun b => !(b = bCOLON)) u) = true
  · unfold parseURL at h
    rw [if_neg (by simp [hs])] at h
    cases hd0 : List.dropWhile (fun b => !(b = bCOLON)) u with
    | nil => simp [hd0] at h
    | cons c0 t0 =>
      cases t0 with
      | nil => simp [hd0] at h
      | cons c1 t1 =>
        cases t1 with
        | nil => simp [hd0] at h
        | cons c2 t2 =>
          simp only [hd0] at h
          by_cases hsl : c1 = bSLASH ∧ c2 = bSLASH
          · rw [if_pos hsl] at h
            by_cases hhost : (t2.takeWhile notSepB).isEmpty = true
            · rw [if_pos hhost] at h; cases h
            · rw [if_neg hhost] at h
              by_cases hdig : ((parsePort (t2.dropWhile notSepB)).1.all isDigitB) = true
              · rw [if_neg (by simp [hdig])] at h
                rw [Option.some_inj] at h
                subst h
                have hsepfacts := dropWhile_head_false notSepB t2
                have hporthead := parsePort_rest_head (t2.dropWhile notSepB)
                  (by
                    cases hx : t2.dropWhile notSepB with
                    | nil => trivial
                    | cons c t =>
                      rw [hx] at hsepfacts
                      exact hsepfacts)
                have hpathfacts := parsePath_facts (parsePort (t2.dropWhile notSepB)).2 hporthead
                refine ⟨?_, ?_, ?_, ?_, ?_, ?_, ?_, ?_⟩
                · show schemeOk (lowerByteStr (u.takeWhile (fun b => !(b = bCOLON)))) = true
                  rw [schemeOk_lower]
                  exact hs
                · exact lowerByteStr_idem _
                · show t2.takeWhile notSepB ≠ []
                  intro h0
                  rw [h0] at hhost
                  exact hhost rfl
                · intro b hb
                  exact List.mem_takeWhile_imp hb
                · exact hdig
                · exact hpathfacts.1
                · exact hpathfacts.2.1
                · exact parseQF_facts _
              · rw [if_pos (by simpa using hdig)] at h; cases h
          · rw [if_neg hsl] at h; cases h
  · unfold parseURL at h
    rw [if_pos (by simpa using hs)] at h
    cases h

/-- Claim C10: saving the issue summary modifies only the keys issueCountTotal,
issueCountByType, issueCountBySeverity and topIssueTypes of the run's totals
JSON; every other key keeps exactly its prior value. -/
theorem saveIssueSummary_frame {V : Type} (existingTotals : String → Option V)
    (summary : IssueSummary V) (k : String)
    (h1 : k ≠ "issueCountTotal") (h2 : k ≠ "issueCountByType")
    (h3 : k ≠ "issueCountBySeverity") (h4 : k ≠ "topIssueTypes") :
    saveIssueSummary existingTotals summary k = existingTotals k := by
  simp [saveIssueSummary, h1, h2, h3, h4]

/-- Witness for C10: the pagesCount entry of the prior totals is unchanged by
the issue-summary merge. -/
theorem saveIssueSummary_frame_witness :
    saveIssueSummary (fun k => if k = "pagesCount" then some 7 else none)
      (IssueSummary.mk 1 2 3 4) "pagesCount" = some 7 := by
  rw [saveIssueSummary_frame (fun k => if k = "pagesCount" then some 7 else none)
    (IssueSummary.mk 1 2 3 4) "pagesCount"
    (by decide) (by decide) (by decide) (by decide)]
  simp

/-- Claim C4 counterexample: the start-of-run wipe deletes Issue, Link and
Page rows of the run, but a Template row scoped to the very same crawlRunId
survives it, so the job does not begin with zero child rows of all four kinds. -/
theorem runCrawlWipe_counterexample :
    (runCrawlWipe (CrawlDB.mk [IssueRowDB.mk "r1"] [LinkRowDB.mk "r1"]
        [PageRowDB.mk "r1"] [TemplateRowDB.mk "r1"]) "r1").issues = []
    ∧ (runCrawlWipe (CrawlDB.mk [IssueRowDB.mk "r1"] [LinkRowDB.mk "r1"]
        [PageRowDB.mk "r1"] [TemplateRowDB.mk "r1"]) "r1").links = []
    ∧ (runCrawlWipe (CrawlDB.mk [IssueRowDB.mk "r1"] [LinkRowDB.mk "r1"]
        [PageRowDB.mk "r1"] [TemplateRowDB.mk "r1"]) "r1").pages = []
    ∧ (runCrawlWipe (CrawlDB.mk [IssueRowDB.mk "r1"] [LinkRowDB.mk "r1"]
        [PageRowDB.mk "r1"] [TemplateRowDB.mk "r1"]) "r1").templates
        = [TemplateRowDB.mk "r1"] := by
  refine ⟨?_, ?_, ?_, rfl⟩ <;> decide

/-- Claim C4 amended: at the start of executing a job, before the first fetch,
all Issue, Link and Page rows scoped to the job's crawlRunId are deleted
(rows of other runs are retained); Template rows are not wiped at all. -/
theorem runCrawlWipe_spec (db : CrawlDB) (crawlRunId : String) :
    (∀ r ∈ (runCrawlWipe db crawlRunId).issues, r.crawlRunId ≠ crawlRunId)
    ∧ (∀ r ∈ (runCrawlWipe db crawlRunId).links, r.crawlRunId ≠ crawlRunId)
    ∧ (∀ r ∈ (runCrawlWipe db crawlRunId).pages, r.crawlRunId ≠ crawlRunId)
    ∧ (runCrawlWipe db crawlRunId).templates = db.templates
    ∧ (∀ r ∈ db.issues, r.crawlRunId ≠ crawlRunId → r ∈ (runCrawlWipe db crawlRunId).issues)
    ∧ (∀ r ∈ db.links, r.crawlRunId ≠ crawlRunId → r ∈ (runCrawlWipe db crawlRunId).links)
    ∧ (∀ r ∈ db.pages, r.crawlRunId ≠ crawlRunId → r ∈ (runCrawlWipe db crawlRunId).pages) := by
  refine ⟨?_, ?_, ?_, rfl, ?_, ?_, ?_⟩
  · intro r hr
    simpa using (List.mem_filter.mp hr).2
  · intro r hr
    simpa using (List.mem_filter.mp hr).2
  · intro r hr
    simpa using (List.mem_filter.mp hr).2
  · intro r hr hne
    exact List.mem_filter.mpr ⟨hr, by simpa using hne⟩
  · intro r hr hne
    exact List.mem_filter.mpr ⟨hr, by simpa using hne⟩
  · intro r hr hne
    exact List.mem_filter.mpr ⟨hr, by simpa using hne⟩

/-- Witness for the amended C4: on a concrete database the wipe removes the
run's Issue row, keeps another run's Issue row, and keeps the Template row. -/
theorem runCrawlWipe_spec_witness :
    IssueRowDB.mk "r2" ∈ (runCrawlWipe (CrawlDB.mk
        [IssueRowDB.mk "r1", IssueRowDB.mk "r2"] [] [] [TemplateRowDB.mk "r1"]) "r1").issues
    ∧ (runCrawlWipe (CrawlDB.mk
        [IssueRowDB.mk "r1", IssueRowDB.mk "r2"] [] [] [TemplateRowDB.mk "r1"]) "r1").templates
        = [TemplateRowDB.mk "r1"] := by
  have h := runCrawlWipe_spec (CrawlDB.mk
    [IssueRowDB.mk "r1", IssueRowDB.mk "r2"] [] [] [TemplateRowDB.mk "r1"]) "r1"
  exact ⟨h.2.2.2.2.1 (IssueRowDB.mk "r2") (by decide) (by decide), h.2.2.2.1⟩

/-- Claim C8 counterexample: re-delivering a job for a run whose status is the
terminal state DONE makes `processJob` write RUNNING (and later DONE again):
a run in a terminal state does transition again. -/
theorem processJob_done_counterexample :
    processJob .DONE false .DONE = [.RUNNING, .DONE]
    ∧ CrawlRunStatus.RUNNING ≠ CrawlRunStatus.DONE := by decide

/-- Claim C8 amended: a CANCELED run never changes status again (`processJob`
writes nothing when the run is CANCELED on entry, and `cancel` rejects every
terminal state), but a DONE or FAILED run is set to RUNNING again whenever its
job is re-delivered, so DONE and FAILED are not sinks under job re-delivery. -/
theorem terminal_status_spec :
    (∀ (crawlThrows : Bool) (statusAfterCrawl : CrawlRunStatus),
        processJob .CANCELED crawlThrows statusAfterCrawl = [])
    ∧ cancel .DONE = none ∧ cancel .FAILED = none ∧ cancel .CANCELED = none
    ∧ (∀ (crawlThrows : Bool) (statusAfterCrawl : CrawlRunStatus),
        (processJob .DONE crawlThrows statusAfterCrawl).head? = some .RUNNING)
    ∧ (∀ (crawlThrows : Bool) (statusAfterCrawl : CrawlRunStatus),
        (processJob .FAILED crawlThrows statusAfterCrawl).head? = some .RUNNING) := by
  decide

/-- `getLast?` of a concatenation with a nonempty right part. -/
theorem getLast_append_right {α : Type} (l r : List α) (h : r ≠ []) :
    (l ++ r).getLast? = r.getLast? := by
  rw [List.getLast?_append, List.getLast?_eq_getLast r h]
  rfl

/-- A list avoiding a value does not end in it. -/
theorem getLast_ne_of_forall {α : Type} (l : List α) (x : α)
    (h : ∀ b ∈ l, ¬ b = x) : ¬ l.getLast? = some x := by
  intro hl
  cases l with
  | nil => cases hl
  | cons a t =>
    rw [List.getLast?_eq_getLast (a :: t) (by simp)] at hl
    rw [Option.some_inj] at hl
    exact h _ (List.getLast_mem (by simp)) hl

/-- A list ending in `x` is its `dropLast` followed by `x`. -/
theorem eq_dropLast_append_getLast {α : Type} (l : List α) (x : α)
    (h : l.getLast? = some x) : l = l.dropLast ++ [x] := by
  cases hl : l with
  | nil => rw [hl] at h; cases h
  | cons a t =>
    rw [hl] at h
    have hne : (a :: t) ≠ [] := by simp
    rw [List.getLast?_eq_getLast _ hne, Option.some_inj] at h
    rw [← h]
    exact (List.dropLast_append_getLast hne).symm

/-- The port stage inverts the port part of the serializer. -/
theorem parsePort_append (po rest : ByteStr)
    (hdig : ∀ b ∈ po, notPortEndB b = true)
    (hrest : headNotP notPortEndB rest) :
    parsePort ((if po.isEmpty then [] else bCOLON :: po) ++ rest) = (po, rest) := by
  by_cases hp : po.isEmpty = true
  · have hpo : po = [] := by
      cases hpo2 : po with
      | nil => rfl
      | cons a b => rw [hpo2] at hp; cases hp
    subst hpo
    rw [if_pos hp, List.nil_append]
    cases rest with
    | nil => rfl
    | cons c r =>
      have hrc : notPortEndB c = false := hrest
      have hc : ¬ c = bCOLON := by
        intro hcc
        rw [hcc] at hrc
        exact absurd hrc (by decide)
      simp [parsePort, hc]
  · rw [if_neg hp, List.cons_append]
    have htd := takeWhile_dropWhile_append notPortEndB po rest hdig
      (by
        cases rest with
        | nil => trivial
        | cons c r => exact hrest)
    simp [parsePort, htd.1, htd.2]

/-- The path stage inverts the path part of the serializer. -/
theorem parsePath_append (pa rest : ByteStr)
    (hpa : ∀ b ∈ pa, notPathEndB b = true) (hne : pa ≠ [])
    (hrest : headNotP notPathEndB rest) :
    parsePath (pa ++ rest) = (pa, rest) := by
  have htd := takeWhile_dropWhile_append notPathEndB pa rest hpa
    (by
      cases rest with
      | nil => trivial
      | cons c r => exact hrest)
  have hemp : pa.isEmpty = false := by
    cases hp : pa with
    | nil => exact absurd hp hne
    | cons a b => rfl
  simp [parsePath, htd.1, htd.2, hemp]

/-- The query stage inverts the query part of the serializer when the
fragment is absent. -/
theorem parseQF_of_query (qu : Option ByteStr)
    (hq : ∀ q, qu = some q → ∀ b ∈ q, ¬ b = bHASH) :
    parseQF (queryPart qu) = (qu, none) := by
  cases qu with
  | none => rfl
  | some q =>
    have hqb : ∀ b ∈ q, (fun b => !(b = bHASH)) b = true := by
      intro b hb
      simp [hq q rfl b hb]
    have htd := takeWhile_dropWhile_append (fun b => !(b = bHASH)) q [] hqb trivial
    rw [List.append_nil] at htd
    show parseQF (bQMARK :: q) = (some q, none)
    simp [parseQF, htd.1, htd.2]

/-- Parsing inverts serialization on well-formed, fragmentless records —
exactly the records `normalizeUrl` serializes. -/
theorem parseURL_serializeURL (r : URLRec)
    (h1 : schemeOk r.scheme = true)
    (h2 : lowerByteStr r.scheme = r.scheme)
    (h3 : r.host ≠ [])
    (h4 : ∀ b ∈ r.host, notSepB b = true)
    (h5 : r.port.all isDigitB = true)
    (h6 : ∃ t, r.path = bSLASH :: t)
    (h7 : ∀ b ∈ r.path, notPathEndB b = true)
    (h8 : ∀ q, r.query = some q → ∀ b ∈ q, ¬ b = bHASH)
    (h9 : r.frag = none) :
    parseURL (serializeURL r) = some r := by
  obtain ⟨sc, ho, po, pa, qu, fr⟩ := r
  dsimp only at h1 h2 h3 h4 h5 h6 h7 h8 h9
  subst h9
  obtain ⟨pt, hpt⟩ := h6
  subst hpt
  have hser : serializeURL ⟨sc, ho, po, bSLASH :: pt, qu, none⟩
      = sc ++ bCOLON :: bSLASH :: bSLASH ::
          (ho ++ ((if po.isEmpty then [] else bCOLON :: po)
            ++ ((bSLASH :: pt) ++ queryPart qu))) := by
    cases qu <;> simp [serializeURL, queryPart, List.append_assoc]
  have hschemeBytes : ∀ x ∈ sc, (fun b => !(b = bCOLON)) x = true := by
    intro x hx
    cases hsc : sc with
    | nil => rw [hsc] at hx; cases hx
    | cons c cs =>
      rw [hsc] at hx h1
      have h1b : (isAlphaB c && cs.all isSchemeCharB) = true := by
        simpa [schemeOk] using h1
      have h1p := (Bool.and_eq_true _ _).mp h1b
      rcases List.mem_cons.mp hx with hx | hx
      · subst hx
        simp [(alpha_facts x h1p.1).2]
      · have hcs := List.all_eq_true.mp h1p.2 x hx
        simp [schemeChar_ne_colon x (by simpa using hcs)]
  have htd := takeWhile_dropWhile_append (fun b => !(b = bCOLON)) sc
      (bCOLON :: bSLASH :: bSLASH ::
        (ho ++ ((if po.isEmpty then [] else bCOLON :: po)
          ++ ((bSLASH :: pt) ++ queryPart qu))))
      hschemeBytes (by simp)
  rw [hser]
  unfold parseURL
  simp only [htd.1, htd.2, h1, Bool.not_true]
  rw [if_neg Bool.false_ne_true]
  rw [if_pos (by constructor <;> trivial)]
  have hin : headNotP notSepB ((if po.isEmpty then [] else bCOLON :: po)
      ++ ((bSLASH :: pt) ++ queryPart qu)) := by
    by_cases hp : po.isEmpty = true
    · rw [if_pos hp]
      show notSepB bSLASH = false
      decide
    · rw [if_neg hp]
      show notSepB bCOLON = false
      decide
  have htd2 := takeWhile_dropWhile_append notSepB ho
      ((if po.isEmpty then [] else bCOLON :: po)
        ++ ((bSLASH :: pt) ++ queryPart qu)) h4
      (by
        cases hcase : ((if po.isEmpty then [] else bCOLON :: po)
            ++ ((bSLASH :: pt) ++ queryPart qu)) with
        | nil => trivial
        | cons c r => rw [hcase] at hin; exact hin)
  have hg2 : ¬ (((ho ++ ((if po.isEmpty then [] else bCOLON :: po)
      ++ ((bSLASH :: pt) ++ queryPart qu))).takeWhile notSepB).isEmpty = true) := by
    rw [htd2.1]
    cases hho : ho with
    | nil => exact absurd hho h3
    | cons a b => simp
  rw [if_neg hg2]
  have hdig : ∀ b ∈ po, notPortEndB b = true := by
    intro b hb
    exact digit_notPortEnd b (List.all_eq_true.mp h5 b hb)
  have hpp := parsePort_append po ((bSLASH :: pt) ++ queryPart qu)
    hdig (by show notPortEndB bSLASH = false; decide)
  simp only [htd2.2, hpp]
  simp only [h5, Bool.not_true]
  rw [if_neg Bool.false_ne_true]
  have hqp_head : headNotP notPathEndB (queryPart qu) := by
    cases qu with
    | none => trivial
    | some q =>
      show notPathEndB bQMARK = false
      decide
  have hpath := parsePath_append (bSLASH :: pt) (queryPart qu) h7 (by simp) hqp_head
  simp only [hpath]
  have hqf := parseQF_of_query qu h8
  simp only [hqf]
  rw [h2, htd2.1]

/-- A byte of a `join('&')` is an ampersand or comes from a segment. -/
theorem mem_joinAmp (segs : List ByteStr) (b : Byte) (hb : b ∈ joinAmp segs) :
    b = bAMP ∨ ∃ seg ∈ segs, b ∈ seg := by
  induction segs with
  | nil => cases hb
  | cons s rest ih =>
    cases rest with
    | nil => exact Or.inr ⟨s, List.mem_singleton.mpr rfl, hb⟩
    | cons s2 r2 =>
      rcases List.mem_append.mp hb with h | h
      · exact Or.inr ⟨s, List.mem_cons_self _ _, h⟩
      · rcases List.mem_cons.mp h with h | h
        · exact Or.inl h
        · rcases ih h with h | ⟨seg, hseg, hmem⟩
          · exact Or.inl h
          · exact Or.inr ⟨seg, List.mem_cons_of_mem _ hseg, hmem⟩

/-- A rebuilt segment contains neither `#` nor `/`. -/
theorem mem_serializePair_ne (kv : ByteStr × ByteStr) (b : Byte)
    (hb : b ∈ serializePair kv) : ¬ b = bHASH ∧ ¬ b = bSLASH := by
  by_cases hv : kv.2.isEmpty = true
  · rw [serializePair, if_pos hv] at hb
    exact ⟨(mem_encodeURIComponent_ne kv.1 b hb).2.2.1,
      (mem_encodeURIComponent_ne kv.1 b hb).2.2.2.1⟩
  · rw [serializePair, if_neg hv] at hb
    rcases List.mem_append.mp hb with h | h
    · exact ⟨(mem_encodeURIComponent_ne kv.1 b h).2.2.1,
        (mem_encodeURIComponent_ne kv.1 b h).2.2.2.1⟩
    · rcases List.mem_cons.mp h with h | h
      · subst h
        exact ⟨by decide, by decide⟩
      · exact ⟨(mem_encodeURIComponent_ne kv.2 b h).2.2.1,
          (mem_encodeURIComponent_ne kv.2 b h).2.2.2.1⟩

/-- The rebuilt search string contains neither `#` nor `/`. -/
theorem mem_rebuiltQuery (r : URLRec) (ip : List ByteStr) (b : Byte)
    (hb : b ∈ rebuiltQuery r ip) : ¬ b = bHASH ∧ ¬ b = bSLASH := by
  unfold rebuiltQuery at hb
  rcases mem_joinAmp _ b hb with h | ⟨seg, hseg, hmem⟩
  · subst h
    exact ⟨by decide, by decide⟩
  · obtain ⟨kv, _, hkv⟩ := List.mem_map.mp hseg
    exact mem_serializePair_ne kv b (hkv ▸ hmem)

/-- Default-port removal keeps the port digit-only. -/
theorem normPort_all_digits (r : URLRec) (h : r.port.all isDigitB = true) :
    (normPort r).all isDigitB = true := by
  unfold normPort
  split
  · rfl
  · exact h

/-- `normPort` only reads the scheme and the port. -/
theorem normPort_congr (r1 r2 : URLRec) (hs : r1.scheme = r2.scheme)
    (hp : r1.port = r2.port) : normPort r1 = normPort r2 := by
  unfold normPort
  rw [hs, hp]

/-- Removing the default port is idempotent across the normalized record. -/
theorem normPort_normRecOf (r : URLRec) (ip : List ByteStr) :
    normPort (normRecOf r ip) = normPort r := by
  show (if (r.scheme = httpBytes ∧ normPort r = port80)
      ∨ (r.scheme = httpsBytes ∧ normPort r = port443) then []
    else normPort r) = normPort r
  by_cases h1 : (r.scheme = httpBytes ∧ normPort r = port80)
      ∨ (r.scheme = httpsBytes ∧ normPort r = port443)
  · exfalso
    unfold normPort at h1
    by_cases hc : (r.scheme = httpBytes ∧ r.port = port80)
        ∨ (r.scheme = httpsBytes ∧ r.port = port443)
    · rw [if_pos hc] at h1
      rcases h1 with ⟨_, h⟩ | ⟨_, h⟩ <;> exact absurd h (by decide)
    · rw [if_neg hc] at h1
      exact hc h1
  · rw [if_neg h1]

/-- `filteredParams` unfolded (for targeted rewriting). -/
theorem filteredParams_def (r2 : URLRec) (ip : List ByteStr) :
    filteredParams r2 ip = (parseQuery (r2.query.getD [])).filter
      (fun kv => !((ip.map lowerByteStr).contains (lowerByteStr kv.1))) := rfl

/-- Re-parsing the rebuilt query of the normalized record recovers the kept
params in sorted order, when no kept pair is wholly empty. -/
theorem filteredParams_normRecOf (r : URLRec) (ip : List ByteStr)
    (ha : ∀ kv ∈ filteredParams r ip, ¬(kv.1 = [] ∧ kv.2 = [])) :
    filteredParams (normRecOf r ip) ip
      = (filteredParams r ip).insertionSort pairLex := by
  rw [filteredParams_def (normRecOf r ip) ip]
  by_cases hl : 0 < (filteredParams r ip).length
  · have hq : (normRecOf r ip).query = some (rebuiltQuery r ip) := by
      simp [normRecOf, hl]
    rw [hq, Option.getD_some]
    have hmem : ∀ kv ∈ (filteredParams r ip).insertionSort pairLex,
        ¬(kv.1 = [] ∧ kv.2 = []) := by
      intro kv hkv
      exact ha kv ((List.perm_insertionSort pairLex _).subset hkv)
    have hpq : parseQuery (rebuiltQuery r ip)
        = (filteredParams r ip).insertionSort pairLex := by
      unfold rebuiltQuery
      exact parseQuery_join_serialize _ hmem
    rw [hpq]
    refine List.filter_eq_self.mpr ?_
    intro kv hkv
    have hkv2 : kv ∈ filteredParams r ip :=
      (List.perm_insertionSort pairLex _).subset hkv
    rw [filteredParams_def] at hkv2
    have h5x := List.of_mem_filter hkv2
    exact h5x
  · have hfe : filteredParams r ip = [] := by
      cases hfp : filteredParams r ip with
      | nil => rfl
      | cons a b =>
        rw [hfp] at hl
        exact absurd (by simp) hl
    have hq : (normRecOf r ip).query = none := by
      simp [normRecOf, hl]
    rw [hq, hfe]
    rfl

/-- Rebuilding the query of the normalized record reproduces it. -/
theorem rebuiltQuery_normRecOf (r : URLRec) (ip : List ByteStr)
    (ha : ∀ kv ∈ filteredParams r ip, ¬(kv.1 = [] ∧ kv.2 = [])) :
    rebuiltQuery (normRecOf r ip) ip = rebuiltQuery r ip := by
  unfold rebuiltQuery
  rw [filteredParams_normRecOf r ip ha]
  rw [List.Sorted.insertionSort_eq (List.sorted_insertionSort pairLex _)]

/-- The record-normalization step is idempotent when no kept pair is wholly
empty. -/
theorem normRecOf_normRecOf (r : URLRec) (ip : List ByteStr)
    (ha : ∀ kv ∈ filteredParams r ip, ¬(kv.1 = [] ∧ kv.2 = [])) :
    normRecOf (normRecOf r ip) ip = normRecOf r ip := by
  show (⟨r.scheme, lowerByteStr (lowerByteStr r.host),
      normPort (normRecOf r ip), r.path,
      if 0 < (filteredParams (normRecOf r ip) ip).length
      then some (rebuiltQuery (normRecOf r ip) ip) else none, none⟩ : URLRec)
    = ⟨r.scheme, lowerByteStr r.host, normPort r, r.path,
       if 0 < (filteredParams r ip).length
       then some (rebuiltQuery r ip) else none, none⟩
  rw [lowerByteStr_idem, normPort_normRecOf r ip,
    filteredParams_normRecOf r ip ha, (List.perm_insertionSort pairLex _).length_eq,
    rebuiltQuery_normRecOf r ip ha]

/-- The serializer split as prefix-plus-(path and query), for records without
a fragment. -/
theorem serializeURL_assoc (r : URLRec) (hf : r.frag = none) :
    serializeURL r = (r.scheme ++ bCOLON :: bSLASH :: bSLASH ::
      (r.host ++ (if r.port.isEmpty then [] else bCOLON :: r.port)))
      ++ (r.path ++ queryPart r.query) := by
  obtain ⟨sc, ho, po, pa, qu, fr⟩ := r
  dsimp only at hf ⊢
  subst hf
  cases qu <;> simp [serializeURL, queryPart, List.append_assoc]

/-- Without query and fragment, the serialization ends as the path does. -/
theorem serializeURL_getLast_noquery (r : URLRec) (hq : r.query = none)
    (hf : r.frag = none) (hp : r.path ≠ []) :
    (serializeURL r).getLast? = r.path.getLast? := by
  rw [serializeURL_assoc r hf, hq]
  show (_ ++ (r.path ++ ([] : ByteStr))).getLast? = _
  rw [List.append_nil]
  exact getLast_append_right _ _ hp

/-- With a slash-free query present, the serialization does not end in a
slash. -/
theorem serializeURL_getLast_query_ne_slash (r : URLRec) (q : ByteStr)
    (hq : r.query = some q) (hf : r.frag = none)
    (hqs : ∀ b ∈ q, ¬ b = bSLASH) :
    ¬ (serializeURL r).getLast? = some bSLASH := by
  rw [serializeURL_assoc r hf, hq]
  rw [getLast_append_right _ _ (by
    intro h0
    exact absurd (List.append_eq_nil.mp h0).2 (by simp [queryPart]))]
  rw [getLast_append_right r.path (queryPart (some q)) (by simp [queryPart])]
  refine getLast_ne_of_forall (queryPart (some q)) bSLASH ?_
  intro b hb
  rcases List.mem_cons.mp (show b ∈ bQMARK :: q from hb) with h | h
  · subst h
    decide
  · exact hqs b h

/-- Without query and fragment, dropping the last serialized byte drops the
last path byte. -/
theorem serializeURL_dropLast_path (r : URLRec) (hq : r.query = none)
    (hf : r.frag = none) (hp : r.path ≠ []) :
    (serializeURL r).dropLast
      = serializeURL ⟨r.scheme, r.host, r.port, r.path.dropLast, none, none⟩ := by
  rw [serializeURL_assoc r hf, hq,
    serializeURL_assoc ⟨r.scheme, r.host, r.port, r.path.dropLast, none, none⟩ rfl]
  simp only [queryPart, List.append_nil]
  exact List.dropLast_append_of_ne_nil _ hp

/-- `normalizeRec` in terms of the normalized record: serialize it and strip
one trailing slash unless the (original) path is exactly `/`. -/
theorem normalizeRec_eq (r : URLRec) (ip : List ByteStr) :
    normalizeRec r ip =
      if r.path ≠ [bSLASH] ∧ (serializeURL (normRecOf r ip)).getLast? = some bSLASH
      then (serializeURL (normRecOf r ip)).dropLast
      else serializeURL (normRecOf r ip) := rfl

/-- `normalizeUrl` on a URL that parses with an http(s) scheme. -/
theorem normalizeUrl_eq_of_parse (u : ByteStr) (r : URLRec) (ip : List ByteStr)
    (hp : parseURL u = some r)
    (hs : r.scheme = httpBytes ∨ r.scheme = httpsBytes) :
    normalizeUrl u ip = some (normalizeRec r ip) := by
  unfold normalizeUrl
  simp only [hp]
  rw [if_pos hs]

/-- The normalized record of a parsed URL parses back from its own
serialization. -/
theorem parseURL_serializeURL_normRecOf (u : ByteStr) (r : URLRec)
    (ip : List ByteStr) (hp : parseURL u = some r) :
    parseURL (serializeURL (normRecOf r ip)) = some (normRecOf r ip) := by
  obtain ⟨f1, f2, f3, f4, f5, f6, f7, f8⟩ := parseURL_facts u r hp
  apply parseURL_serializeURL
  · exact f1
  · exact f2
  · intro h0
    have h0b : lowerByteStr r.host = [] := h0
    exact f3 (by simpa [lowerByteStr] using h0b)
  · intro b hb
    have hb2 : b ∈ lowerByteStr r.host := hb
    obtain ⟨c, hc, hcb⟩ := List.mem_map.mp hb2
    exact hcb ▸ lowerByte_notSep c (f4 c hc)
  · exact normPort_all_digits r f5
  · exact f6
  · exact f7
  · intro q hq b hb
    by_cases hl : 0 < (filteredParams r ip).length
    · have hq2 : (normRecOf r ip).query = some (rebuiltQuery r ip) := by
        simp [normRecOf, hl]
      rw [hq2, Option.some_inj] at hq
      subst hq
      exact (mem_rebuiltQuery r ip b hb).1
    · have hq2 : (normRecOf r ip).query = none := by
        simp [normRecOf, hl]
      rw [hq2] at hq
      cases hq
  · rfl

/-- Claim C6, counterexample: `normalizeUrl` is not idempotent. On
`http://a.test/a//` the first pass serializes to `.../a/` and strips one
trailing slash to `.../a/`; re-normalizing strips the remaining slash,
giving `.../a`, a different string. -/
theorem normalizeUrl_idem_counterexample :
    (normalizeUrl (strB "http://a.test/a//") []).bind
        (fun n => normalizeUrl n []) ≠ normalizeUrl (strB "http://a.test/a//") [] := by
  decide

/-- Claim C6 (amended): `normalizeUrl` is idempotent on URLs whose kept
query params contain no wholly-empty pair (an empty name with an empty
value collapses on re-parsing) and whose path does not end in a double
slash `//` (the strip removes one slash per pass, so `/a//` needs two
passes). Both side conditions hold for ordinary URLs. -/
theorem normalizeUrl_idem (u : ByteStr) (ip : List ByteStr) (r : URLRec)
    (n : ByteStr)
    (hp : parseURL u = some r)
    (hn : normalizeUrl u ip = some n)
    (ha : ∀ kv ∈ filteredParams r ip, ¬(kv.1 = [] ∧ kv.2 = []))
    (hb : listEndsWith r.path [bSLASH, bSLASH] = false) :
    normalizeUrl n ip = some n := by
  have hs : r.scheme = httpBytes ∨ r.scheme = httpsBytes := by
    unfold normalizeUrl at hn
    simp only [hp] at hn
    by_cases h : r.scheme = httpBytes ∨ r.scheme = httpsBytes
    · exact h
    · rw [if_neg h] at hn
      cases hn
  have hn2 : n = normalizeRec r ip := by
    have h2 := normalizeUrl_eq_of_parse u r ip hp hs
    rw [h2] at hn
    exact (Option.some_inj.mp hn).symm
  subst hn2
  obtain ⟨f1, f2, f3, f4, f5, f6, f7, f8⟩ := parseURL_facts u r hp
  have hround := parseURL_serializeURL_normRecOf u r ip hp
  rw [normalizeRec_eq r ip]
  by_cases hstrip : r.path ≠ [bSLASH]
      ∧ (serializeURL (normRecOf r ip)).getLast? = some bSLASH
  · rw [if_pos hstrip]
    have hqnone : (normRecOf r ip).query = none := by
      by_cases hl : 0 < (filteredParams r ip).length
      · exfalso
        have hq : (normRecOf r ip).query = some (rebuiltQuery r ip) := by
          simp [normRecOf, hl]
        exact serializeURL_getLast_query_ne_slash (normRecOf r ip)
          (rebuiltQuery r ip) hq rfl
          (fun b hb2 => (mem_rebuiltQuery r ip b hb2).2) hstrip.2
      · simp [normRecOf, hl]
    obtain ⟨pt, hpt⟩ := f6
    have hpne : r.path ≠ [] := by
      rw [hpt]
      simp
    have hptne : pt ≠ [] := by
      intro h0
      exact hstrip.1 (by rw [hpt, h0])
    have hdl : r.path.dropLast = bSLASH :: pt.dropLast := by
      rw [hpt, List.dropLast_cons_of_ne_nil hptne]
    have hdrop := serializeURL_dropLast_path (normRecOf r ip) hqnone rfl hpne
    rw [hdrop]
    have hparse2 : parseURL (serializeURL
        (⟨(normRecOf r ip).scheme, (normRecOf r ip).host, (normRecOf r ip).port,
          (normRecOf r ip).path.dropLast, none, none⟩ : URLRec))
        = some ⟨(normRecOf r ip).scheme, (normRecOf r ip).host,
            (normRecOf r ip).port, (normRecOf r ip).path.dropLast, none, none⟩ := by
      apply parseURL_serializeURL
      · exact f1
      · exact f2
      · intro h0
        have h0b : lowerByteStr r.host = [] := h0
        exact f3 (by simpa [lowerByteStr] using h0b)
      · intro b hb2
        have hb3 : b ∈ lowerByteStr r.host := hb2
        obtain ⟨c, hc, hcb⟩ := List.mem_map.mp hb3
        exact hcb ▸ lowerByte_notSep c (f4 c hc)
      · exact normPort_all_digits r f5
      · exact ⟨pt.dropLast, hdl⟩
      · intro b hb2
        have hb3 : b ∈ r.path.dropLast := hb2
        exact f7 b (List.dropLast_subset _ hb3)
      · intro q hq
        cases hq
      · rfl
    unfold normalizeUrl
    simp only [hparse2]
    rw [if_pos (show (normRecOf r ip).scheme = httpBytes
      ∨ (normRecOf r ip).scheme = httpsBytes from hs)]
    rw [normalizeRec_eq]
    have hfp2 : filteredParams (⟨(normRecOf r ip).scheme, (normRecOf r ip).host,
        (normRecOf r ip).port, (normRecOf r ip).path.dropLast, none, none⟩ : URLRec) ip
        = [] := rfl
    have hnp : normPort (⟨(normRecOf r ip).scheme, (normRecOf r ip).host,
        (normRecOf r ip).port, (normRecOf r ip).path.dropLast, none, none⟩ : URLRec)
        = normPort r :=
      (normPort_congr (⟨(normRecOf r ip).scheme, (normRecOf r ip).host,
        (normRecOf r ip).port, (normRecOf r ip).path.dropLast, none, none⟩ : URLRec)
        (normRecOf r ip) rfl rfl).trans (normPort_normRecOf r ip)
    have hr2 : normRecOf (⟨(normRecOf r ip).scheme, (normRecOf r ip).host,
        (normRecOf r ip).port, (normRecOf r ip).path.dropLast, none, none⟩ : URLRec) ip
        = ⟨(normRecOf r ip).scheme, (normRecOf r ip).host,
           (normRecOf r ip).port, (normRecOf r ip).path.dropLast, none, none⟩ := by
      show (⟨r.scheme, lowerByteStr (lowerByteStr r.host),
          normPort (⟨(normRecOf r ip).scheme, (normRecOf r ip).host,
            (normRecOf r ip).port, (normRecOf r ip).path.dropLast, none, none⟩ : URLRec),
          r.path.dropLast,
          if 0 < (filteredParams (⟨(normRecOf r ip).scheme, (normRecOf r ip).host,
            (normRecOf r ip).port, (normRecOf r ip).path.dropLast, none,
            none⟩ : URLRec) ip).length
          then some (rebuiltQuery (⟨(normRecOf r ip).scheme, (normRecOf r ip).host,
            (normRecOf r ip).port, (normRecOf r ip).path.dropLast, none,
            none⟩ : URLRec) ip) else none, none⟩ : URLRec)
        = ⟨r.scheme, lowerByteStr r.host, normPort r, r.path.dropLast, none, none⟩
      rw [lowerByteStr_idem, hnp, hfp2]
      rfl
    rw [hr2]
    have hde : (⟨(normRecOf r ip).scheme, (normRecOf r ip).host,
        (normRecOf r ip).port, (normRecOf r ip).path.dropLast, none,
        none⟩ : URLRec).path ≠ [] := by
      intro hx
      have hx2 : r.path.dropLast = [] := hx
      rw [hdl] at hx2
      cases hx2
    have hnostrip : ¬ ((⟨(normRecOf r ip).scheme, (normRecOf r ip).host,
        (normRecOf r ip).port, (normRecOf r ip).path.dropLast, none,
        none⟩ : URLRec).path ≠ [bSLASH]
        ∧ (serializeURL (⟨(normRecOf r ip).scheme, (normRecOf r ip).host,
            (normRecOf r ip).port, (normRecOf r ip).path.dropLast, none,
            none⟩ : URLRec)).getLast? = some bSLASH) := by
      rintro ⟨hne2, hl2⟩
      rw [serializeURL_getLast_noquery _ rfl rfl hde] at hl2
      have hlp2 : r.path.dropLast.getLast? = some bSLASH := hl2
      have hlast : r.path.getLast? = some bSLASH := by
        have h0 := hstrip.2
        rw [serializeURL_getLast_noquery (normRecOf r ip) hqnone rfl hpne] at h0
        exact h0
      have hpeq : r.path = r.path.dropLast ++ [bSLASH] :=
        eq_dropLast_append_getLast r.path bSLASH hlast
      have hdleq : r.path.dropLast = r.path.dropLast.dropLast ++ [bSLASH] :=
        eq_dropLast_append_getLast r.path.dropLast bSLASH hlp2
      have hdd : [bSLASH, bSLASH] <:+ r.path :=
        ⟨r.path.dropLast.dropLast, by
          calc r.path.dropLast.dropLast ++ [bSLASH, bSLASH]
              = (r.path.dropLast.dropLast ++ [bSLASH]) ++ [bSLASH] := by
                rw [List.append_assoc]
                rfl
            _ = r.path.dropLast ++ [bSLASH] := by rw [← hdleq]
            _ = r.path := hpeq.symm⟩
      have htrue : listEndsWith r.path [bSLASH, bSLASH] = true := decide_eq_true hdd
      rw [htrue] at hb
      cases hb
    rw [if_neg hnostrip]
  · rw [if_neg hstrip]
    unfold normalizeUrl
    simp only [hround]
    rw [if_pos (show (normRecOf r ip).scheme = httpBytes
      ∨ (normRecOf r ip).scheme = httpsBytes from hs)]
    rw [normalizeRec_eq]
    rw [normRecOf_normRecOf r ip ha]
    have hstrip2 : ¬ ((normRecOf r ip).path ≠ [bSLASH]
        ∧ (serializeURL (normRecOf r ip)).getLast? = some bSLASH) := hstrip
    rw [if_neg hstrip2]

/-- Claim C6 witness: idempotence evaluated on a URL with a re-sorted
two-parameter query. -/
theorem normalizeUrl_idem_witness :
    normalizeUrl (strB "http://a.test/x?b=2&a=1") []
        = some (strB "http://a.test/x?a=1&b=2")
    ∧ normalizeUrl (strB "http://a.test/x?a=1&b=2") []
        = some (strB "http://a.test/x?a=1&b=2") := by
  refine ⟨by decide, ?_⟩
  exact normalizeUrl_idem (strB "http://a.test/x?b=2&a=1") []
    ⟨strB "http", strB "a.test", [], strB "/x", some (strB "b=2&a=1"), none⟩
    (strB "http://a.test/x?a=1&b=2")
    (by decide) (by decide) (by decide) (by decide)

/-- Claim C7, counterexample: the source strips the trailing slash only when
the whole serialized string ends with `/`, so a URL whose path ends with a
slash but which carries a query keeps the slash, and the two URLs differing
only by that slash normalize to different outputs. -/
theorem trailing_slash_counterexample :
    normalizeUrl (strB "http://a.test/x/?a=1") []
        = some (strB "http://a.test/x/?a=1")
    ∧ normalizeUrl (strB "http://a.test/x/?a=1") []
        ≠ normalizeUrl (strB "http://a.test/x?a=1") [] := by
  decide

/-- Claim C7 (amended): for a parsed http(s) URL whose path ends with `/`
and is not exactly `/`, the trailing slash is stripped exactly when no query
param survives filtering; when one does, the serialization ends with the
query, the strip test fails, and the slash is kept. -/
theorem normalizeUrl_trailing_slash (u : ByteStr) (ip : List ByteStr)
    (r : URLRec)
    (hp : parseURL u = some r)
    (hs : r.scheme = httpBytes ∨ r.scheme = httpsBytes)
    (hslash : r.path.getLast? = some bSLASH)
    (hne : r.path ≠ [bSLASH]) :
    (filteredParams r ip = [] →
      normalizeUrl u ip = some (serializeURL
        ⟨r.scheme, lowerByteStr r.host, normPort r, r.path.dropLast, none, none⟩))
    ∧ (filteredParams r ip ≠ [] →
      normalizeUrl u ip = some (serializeURL
        ⟨r.scheme, lowerByteStr r.host, normPort r, r.path,
         some (rebuiltQuery r ip), none⟩)) := by
  have hnu := normalizeUrl_eq_of_parse u r ip hp hs
  constructor
  · intro hq0
    rw [hnu, normalizeRec_eq]
    have hqn : (normRecOf r ip).query = none := by
      simp [normRecOf, hq0]
    have hpne : r.path ≠ [] := by
      intro h0
      rw [h0] at hslash
      cases hslash
    have hlast : (serializeURL (normRecOf r ip)).getLast? = some bSLASH := by
      rw [serializeURL_getLast_noquery (normRecOf r ip) hqn rfl hpne]
      exact hslash
    rw [if_pos ⟨hne, hlast⟩]
    rw [serializeURL_dropLast_path (normRecOf r ip) hqn rfl hpne]
    rfl
  · intro hq1
    rw [hnu, normalizeRec_eq]
    have hl : 0 < (filteredParams r ip).length := by
      cases hfp : filteredParams r ip with
      | nil => exact absurd hfp hq1
      | cons a b => simp
    have hqs : (normRecOf r ip).query = some (rebuiltQuery r ip) := by
      simp [normRecOf, hl]
    have hnostrip : ¬ (r.path ≠ [bSLASH]
        ∧ (serializeURL (normRecOf r ip)).getLast? = some bSLASH) := by
      rintro ⟨_, hl2⟩
      exact serializeURL_getLast_query_ne_slash (normRecOf r ip)
        (rebuiltQuery r ip) hqs rfl
        (fun b hb2 => (mem_rebuiltQuery r ip b hb2).2) hl2
    rw [if_neg hnostrip]
    have hrec : normRecOf r ip
        = ⟨r.scheme, lowerByteStr r.host, normPort r, r.path,
           some (rebuiltQuery r ip), none⟩ := by
      unfold normRecOf
      rw [if_pos hl]
    rw [hrec]

/-- Claim C7 witness: the strip evaluated on a query-free URL with a
trailing slash. -/
theorem normalizeUrl_trailing_slash_witness :
    normalizeUrl (strB "http://a.test/x/") [] = some (strB "http://a.test/x") := by
  have h := normalizeUrl_trailing_slash (strB "http://a.test/x/") []
    ⟨strB "http", strB "a.test", [], strB "/x/", none, none⟩
    (by decide) (by decide) (by decide) (by decide)
  have h2 := h.1 (by decide)
  rw [h2]
  decide

end HydraFrog
